import Mathlib

/-!
# inih / INIReader (header-only): a shallow embedding

The line parser `ini_parse_stream` and the typed store `INIReader` of
`src/INIReader.h`, with the default configuration of that header
(`INI_ALLOW_MULTILINE = 1`, `INI_ALLOW_BOM = 1`, `INI_ALLOW_INLINE_COMMENTS = 1`,
`INI_INLINE_COMMENT_PREFIXES = ";"`, `INI_STOP_ON_FIRST_ERROR = 0`,
`INI_MAX_LINE = 200`, `MAX_SECTION = MAX_NAME = 50`).

Conventions of the embedding:
* a byte (`char`, read as `unsigned char`) is a natural number; a C string is the
  list of its bytes before the terminating NUL; `str "abc"` is the byte list of
  an ASCII literal;
* a pointer into the line buffer is the list of bytes from that position on;
* `<ctype.h>` is the "C" locale;
* the input of `ini_parse_stream` is the list of buffers that its reader returns
  before `NULL`; an open `FILE*` is the list of bytes left to read, which `fgets`
  cuts into buffers of at most `INI_MAX_LINE - 1` bytes;
* `lineno` and `error` are natural numbers, `long` has 64 bits;
* the callback is a function from the user state and the three strings to its
  `int` result and the new user state;
* `std::map<std::string, std::string>` is a partial function from keys to values,
  `std::set<std::string>` a duplicate-free list (iteration order is not modelled).
-/

namespace INI

/-! ## Bytes and C strings -/

/-- The bytes of an ASCII string literal. -/
def str (s : String) : List Nat := s.toList.map Char.toNat

/-- The C string held by a character buffer: the bytes before the first NUL. -/
def cstr (buf : List Nat) : List Nat := buf.takeWhile (fun c => c != 0)

/-- `isspace` of the "C" locale: space, `\t`, `\n`, `\v`, `\f`, `\r`. -/
def isspace (c : Nat) : Bool := c == 32 || (9 ≤ c && c ≤ 13)

/-- `tolower` of the "C" locale. -/
def tolower (c : Nat) : Nat := if 65 ≤ c ∧ c ≤ 90 then c + 32 else c

def INI_INLINE_COMMENT_PREFIXES : List Nat := [59]

def INI_MAX_LINE : Nat := 200

def MAX_SECTION : Nat := 50

def MAX_NAME : Nat := 50

/-- `rstrip`: strip whitespace bytes off the end of the string. -/
def rstrip (s : List Nat) : List Nat := (s.reverse.dropWhile isspace).reverse

/-- `lskip`: the string from its first non-whitespace byte on. -/
def lskip (s : List Nat) : List Nat := s.dropWhile isspace

/-- The loop of `find_chars_or_comment`: the number of bytes the pointer advances.
`chars = none` is the `NULL` argument. -/
def find_chars_or_comment_loop (chars : Option (List Nat)) : Bool → List Nat → Nat
  | _, [] => 0
  | was_space, c :: s =>
    if (match chars with
        | none => true
        | some cs => decide (c ∉ cs)) &&
       !(was_space && decide (c ∈ INI_INLINE_COMMENT_PREFIXES))
    then find_chars_or_comment_loop chars (isspace c) s + 1
    else 0

/-- `find_chars_or_comment(s, chars)`: offset of the first byte of `chars`, or of
an inline comment (a `;` that follows a whitespace byte), or of the terminating
NUL if neither is found. -/
def find_chars_or_comment (s : List Nat) (chars : Option (List Nat)) : Nat :=
  find_chars_or_comment_loop chars false s

/-- `strncpy0(dest, src, size)`: the string left in `dest`. -/
def strncpy0 (src : List Nat) (size : Nat) : List Nat := src.take (size - 1)

/-! ## The line parser -/

/-- The local variables of `ini_parse_stream` that live across loop iterations,
together with the `user` state threaded through the handler. -/
structure ParseState (υ : Type) where
  user : υ
  «section» : List Nat
  prev_name : List Nat
  lineno : Nat
  error : Nat

/-- An `ini_handler`: `handler(user, section, name, value)`, returning its `int`
result and the user state it leaves behind. -/
abbrev Handler (υ : Type) := υ → List Nat → List Nat → List Nat → Int × υ

/-- One iteration of the `while` loop of `ini_parse_stream`, on the buffer `buf`
that the reader has just filled. -/
def ini_parse_line {υ : Type} (handler : Handler υ) (st : ParseState υ) (buf : List Nat) :
    ParseState υ :=
  let lineno := st.lineno + 1
  let line := cstr buf
  -- INI_ALLOW_BOM
  let bom : Bool := lineno == 1 && line.take 3 == [0xEF, 0xBB, 0xBF]
  let start0 := if bom then line.drop 3 else line
  let stripped := rstrip start0
  let start := lskip stripped
  -- `start > line`
  let start_gt_line : Bool := bom || decide (start.length < stripped.length)
  if start.head? = some 59 ∨ start.head? = some 35 then
    -- `;` or `#`: a comment line
    { st with lineno := lineno }
  else if st.prev_name ≠ [] ∧ start ≠ [] ∧ start_gt_line = true then
    -- continuation of the previous name's value
    let e := find_chars_or_comment start none
    let value := rstrip (start.take e)
    let r := handler st.user st.«section» st.prev_name value
    { st with user := r.2, lineno := lineno,
              error := if r.1 = 0 ∧ st.error = 0 then lineno else st.error }
  else if start.head? = some 91 then
    -- a "[section]" line
    let rest := start.drop 1
    let e := find_chars_or_comment rest (some [93])
    if rest.get? e = some 93 then
      { st with «section» := strncpy0 (rest.take e) MAX_SECTION, prev_name := [],
                lineno := lineno }
    else if st.error = 0 then
      { st with lineno := lineno, error := lineno }
    else
      { st with lineno := lineno }
  else if start ≠ [] then
    -- must be a name[=:]value pair
    let e := find_chars_or_comment start (some [61, 58])
    if start.get? e = some 61 ∨ start.get? e = some 58 then
      let name := rstrip (start.take e)
      let value0 := lskip (start.drop (e + 1))
      let e2 := find_chars_or_comment value0 none
      let value := rstrip (value0.take e2)
      let r := handler st.user st.«section» name value
      { st with user := r.2, prev_name := strncpy0 name MAX_NAME, lineno := lineno,
                error := if r.1 = 0 ∧ st.error = 0 then lineno else st.error }
    else if st.error = 0 then
      { st with lineno := lineno, error := lineno }
    else
      { st with lineno := lineno }
  else
    { st with lineno := lineno }

/-- The state in which `ini_parse_stream` enters its loop. -/
def ParseState.init {υ : Type} (user : υ) : ParseState υ :=
  { user := user, «section» := [], prev_name := [], lineno := 0, error := 0 }

/-- The loop of `ini_parse_stream` over `lines`, the buffers that the successive
calls of `reader` return before it returns `NULL`. -/
def ini_parse_loop {υ : Type} (handler : Handler υ) (st : ParseState υ)
    (lines : List (List Nat)) : ParseState υ :=
  lines.foldl (ini_parse_line handler) st

/-- `ini_parse_stream(reader, stream, handler, user)`: the returned `error` and the
user state after the last handler call. -/
def ini_parse_stream {υ : Type} (lines : List (List Nat)) (handler : Handler υ) (user : υ) :
    Nat × υ :=
  let st := ini_parse_loop handler (ParseState.init user) lines
  (st.error, st.user)

/-- One call `fgets(str, num, stream)` that is known to have input left: the bytes
stored (at most `room = num - 1`, ending after a newline) and the rest of the
stream. -/
def fgets_read : Nat → List Nat → List Nat × List Nat
  | 0, s => ([], s)
  | _ + 1, [] => ([], [])
  | room + 1, c :: s =>
    if c = 10 then ([c], s)
    else ((c :: (fgets_read room s).1), (fgets_read room s).2)

/-- `fgets(str, num, stream)`: `none` is the `NULL` returned at end of file. -/
def fgets (num : Nat) (stream : List Nat) : Option (List Nat × List Nat) :=
  if stream = [] then none else some (fgets_read (num - 1) stream)

/-- The buffers returned by repeated `fgets(line, INI_MAX_LINE, file)` until `NULL`;
`fuel` bounds the number of calls. -/
def fgets_lines : Nat → List Nat → List (List Nat)
  | 0, _ => []
  | fuel + 1, stream =>
    match fgets INI_MAX_LINE stream with
    | none => []
    | some (line, rest) => line :: fgets_lines fuel rest

/-- `ini_parse_file(file, handler, user)` on a file with the given content: every
`fgets` call consumes a byte, so `file.length` calls reach the end of file. -/
def ini_parse_file {υ : Type} (file : List Nat) (handler : Handler υ) (user : υ) : Nat × υ :=
  ini_parse_stream (fgets_lines file.length file) handler user

/-! ## The typed store -/

/-- The data members of `INIReader`. -/
structure INIReader where
  _error : Int
  _values : List Nat → Option (List Nat)
  _sections : List (List Nat)

/-- `INIReader::make_key`. -/
def make_key («section» name : List Nat) : List Nat :=
  («section» ++ str "=" ++ name).map tolower

/-- `INIReader::value_handler`, with `reader = (INIReader*)user`.
`_values[key]` default-constructs an empty string for an absent key. -/
def value_handler : Handler INIReader := fun reader «section» name value =>
  let key := make_key «section» name
  let cur := (reader._values key).getD []
  let cur1 := if cur.length > 0 then cur ++ str "\n" else cur
  let cur2 := cur1 ++ value
  (1, { reader with _values := Function.update reader._values key (some cur2),
                    _sections := if «section» ∈ reader._sections then reader._sections
                                 else reader._sections ++ [«section»] })

/-- The store before parsing: no values, no sections. -/
def INIReader.empty : INIReader :=
  { _error := 0, _values := fun _ => none, _sections := [] }

/-- The store built by `_error = ini_parse_stream(reader, stream, value_handler, this)`
from the lines that the reader returns. -/
def INIReader.of_lines (lines : List (List Nat)) : INIReader :=
  let r := ini_parse_stream lines value_handler INIReader.empty
  { r.2 with _error := (r.1 : Int) }

/-- `INIReader::INIReader(FILE *file)` on a file with the given content:
`_error = ini_parse_file(file, value_handler, this)`. -/
def INIReader.of_file (file : List Nat) : INIReader :=
  let r := ini_parse_file file value_handler INIReader.empty
  { r.2 with _error := (r.1 : Int) }

/-- `INIReader::error`. -/
def INIReader.error (r : INIReader) : Int := r._error

/-- `INIReader::sections`. -/
def INIReader.sections (r : INIReader) : List (List Nat) := r._sections

/-- `std::map::count`. -/
def map_count (m : List Nat → Option (List Nat)) (key : List Nat) : Nat :=
  if (m key).isSome then 1 else 0

/-- `std::map::at`, used only on keys that are present. -/
def map_at (m : List Nat → Option (List Nat)) (key : List Nat) : List Nat :=
  (m key).getD []

/-- `INIReader::get<std::string>`. -/
def INIReader.get_string (r : INIReader) («section» name default_value : List Nat) : List Nat :=
  let key := make_key «section» name
  let main_key := make_key (str "main") name
  if map_count r._values key > 0 then map_at r._values key
  else if map_count r._values main_key > 0 then map_at r._values main_key
  else default_value

/-- `INIReader::get<bool>`. -/
def INIReader.get_bool (r : INIReader) («section» name : List Nat) (default_value : Bool) : Bool :=
  let valstr := (r.get_string «section» name (str "")).map tolower
  if valstr = str "true" ∨ valstr = str "yes" ∨ valstr = str "on" ∨ valstr = str "1" then true
  else if valstr = str "false" ∨ valstr = str "no" ∨ valstr = str "off" ∨ valstr = str "0" then
    false
  else default_value

/-- `LONG_MAX` and `LONG_MIN` of a 64-bit `long`. -/
def LONG_MAX : Int := 2 ^ 63 - 1

def LONG_MIN : Int := -(2 ^ 63)

/-- The value of a byte as a digit: `0`-`9`, then `a`-`z` or `A`-`Z` for 10 to 35. -/
def digit_value (c : Nat) : Option Nat :=
  if 48 ≤ c ∧ c ≤ 57 then some (c - 48)
  else if 97 ≤ c ∧ c ≤ 122 then some (c - 97 + 10)
  else if 65 ≤ c ∧ c ≤ 90 then some (c - 65 + 10)
  else none

/-- The longest run of leading digits of the given base: the number read so far
and the count of digits consumed. -/
def strtol_digits (base : Nat) : List Nat → Nat → Nat → Nat × Nat
  | [], acc, n => (acc, n)
  | c :: s, acc, n =>
    match digit_value c with
    | some d => if d < base then strtol_digits base s (acc * base + d) (n + 1) else (acc, n)
    | none => (acc, n)

/-- The C library function `strtol(nptr, &end, base)` (ISO C 7.22.1.4, "C" locale)
for `base` 0 or 2 to 36: the value returned and `end - nptr`. Leading whitespace
and one sign are skipped; with base 0 a `0x`/`0X` before a hexadecimal digit
selects base 16, another leading `0` base 8, anything else base 10; the result
saturates at `LONG_MAX` / `LONG_MIN`; with no digits nothing is consumed. -/
def strtol (nptr : List Nat) (base : Nat) : Int × Nat :=
  let s0 := lskip nptr
  let ws := nptr.length - s0.length
  let neg : Bool := s0.head? = some 45
  let signed : Bool := s0.head? = some 45 || s0.head? = some 43
  let s1 := if signed then s0.drop 1 else s0
  let hex : Bool :=
    (base == 0 || base == 16) && s1.head? == some 48 &&
    (s1.get? 1 == some 120 || s1.get? 1 == some 88) &&
    (match (s1.get? 2).bind digit_value with
     | some d => decide (d < 16)
     | none => false)
  let b := if base = 0 then (if hex then 16 else if s1.head? = some 48 then 8 else 10) else base
  let s2 := if hex then s1.drop 2 else s1
  let r := strtol_digits b s2 0 0
  if r.2 = 0 then (0, 0)
  else
    let v : Int := if neg then -(r.1 : Int) else (r.1 : Int)
    (max LONG_MIN (min LONG_MAX v), ws + (if signed then 1 else 0) + (if hex then 2 else 0) + r.2)

/-- `INIReader::get<long>`. -/
def INIReader.get_long (r : INIReader) («section» name : List Nat) (default_value : Int) : Int :=
  let valstr := r.get_string «section» name (str "")
  let value := cstr valstr
  let p := strtol value 0
  if p.2 > 0 then p.1 else default_value

/-! ## The loop body, branch by branch -/

/-- The branch that one loop iteration takes, with the strings it computes. It is
determined by the line number, `prev_name` and the buffer alone. -/
inductive LineKind
  | ignored
  | continuation (value : List Nat)
  | header (sec : List Nat)
  | pair (name value : List Nat)
  | malformed
  deriving DecidableEq, Repr

/-- The branch taken by the loop body of `ini_parse_stream` on `buf`, when it is
line number `lineno` and the previous name is `prev_name`: `ignored` for a
comment or blank line, `malformed` for the two branches that record a syntax
error. -/
def classify (lineno : Nat) (prev_name buf : List Nat) : LineKind :=
  let line := cstr buf
  let bom : Bool := lineno == 1 && line.take 3 == [0xEF, 0xBB, 0xBF]
  let start0 := if bom then line.drop 3 else line
  let stripped := rstrip start0
  let start := lskip stripped
  let start_gt_line : Bool := bom || decide (start.length < stripped.length)
  if start.head? = some 59 ∨ start.head? = some 35 then .ignored
  else if prev_name ≠ [] ∧ start ≠ [] ∧ start_gt_line = true then
    .continuation (rstrip (start.take (find_chars_or_comment start none)))
  else if start.head? = some 91 then
    let rest := start.drop 1
    let e := find_chars_or_comment rest (some [93])
    if rest.get? e = some 93 then .header (strncpy0 (rest.take e) MAX_SECTION)
    else .malformed
  else if start ≠ [] then
    let e := find_chars_or_comment start (some [61, 58])
    if start.get? e = some 61 ∨ start.get? e = some 58 then
      let value0 := lskip (start.drop (e + 1))
      .pair (rstrip (start.take e)) (rstrip (value0.take (find_chars_or_comment value0 none)))
    else .malformed
  else .ignored

/-- The effect of a branch on the parser state. -/
def ParseState.after {υ : Type} (handler : Handler υ) (st : ParseState υ) :
    LineKind → ParseState υ
  | .ignored => { st with lineno := st.lineno + 1 }
  | .continuation value =>
    { st with user := (handler st.user st.«section» st.prev_name value).2,
              lineno := st.lineno + 1,
              error := if (handler st.user st.«section» st.prev_name value).1 = 0 ∧ st.error = 0
                       then st.lineno + 1 else st.error }
  | .header sec => { st with «section» := sec, prev_name := [], lineno := st.lineno + 1 }
  | .pair name value =>
    { st with user := (handler st.user st.«section» name value).2,
              prev_name := strncpy0 name MAX_NAME,
              lineno := st.lineno + 1,
              error := if (handler st.user st.«section» name value).1 = 0 ∧ st.error = 0
                       then st.lineno + 1 else st.error }
  | .malformed =>
    { st with lineno := st.lineno + 1, error := if st.error = 0 then st.lineno + 1 else st.error }

/-- A callback invocation: section, name, value. -/
abbrev Call := List Nat × List Nat × List Nat

/-- The handler that accepts everything and keeps the list of its invocations. -/
def record : Handler (List Call) := fun calls «section» name value =>
  (1, calls ++ [(«section», name, value)])

/-- The sequence of callback invocations that `ini_parse_stream` makes on `lines`. -/
def ini_calls (lines : List (List Nat)) : List Call :=
  (ini_parse_stream lines record []).2

/-- The previous name after a line that took the given branch. -/
def LineKind.next_prev_name (prev_name : List Nat) : LineKind → List Nat
  | .header _ => []
  | .pair name _ => strncpy0 name MAX_NAME
  | _ => prev_name

/-- The current section after a line that took the given branch. -/
def LineKind.next_section (sec : List Nat) : LineKind → List Nat
  | .header s => s
  | _ => sec

/-- The callback invocation made by a line that took the given branch, if any. -/
def LineKind.call (sec prev_name : List Nat) : LineKind → Option Call
  | .continuation value => some (sec, prev_name, value)
  | .pair name value => some (sec, name, value)
  | _ => none

/-- The callback invocations made on `lines` when the loop reaches them with the
given section, previous name and line count. -/
def scan_calls : List (List Nat) → List Nat → List Nat → Nat → List Call
  | [], _, _, _ => []
  | buf :: lines, sec, prev_name, lineno =>
    let k := classify (lineno + 1) prev_name buf
    (k.call sec prev_name).toList ++
      scan_calls lines (k.next_section sec) (k.next_prev_name prev_name) (lineno + 1)

/-- Whether the loop body, entered in state `st`, records line `buf` as an error:
it takes a syntax-error branch, or the handler it invokes returns zero. -/
def line_fails {υ : Type} (handler : Handler υ) (st : ParseState υ) (buf : List Nat) : Bool :=
  match classify (st.lineno + 1) st.prev_name buf with
  | .malformed => true
  | .continuation value => decide ((handler st.user st.«section» st.prev_name value).1 = 0)
  | .pair name value => decide ((handler st.user st.«section» name value).1 = 0)
  | _ => false

/-- For each line in order, whether the loop records it as an error, the loop
being entered in state `st`. -/
def line_results {υ : Type} (handler : Handler υ) :
    ParseState υ → List (List Nat) → List Bool
  | _, [] => []
  | st, buf :: lines =>
    line_fails handler st buf :: line_results handler (ini_parse_line handler st buf) lines

/-- A syntax error in the wording of the specification: a section line (trimmed
form starting with `[`) without a closing `]`, or a pair line (non-empty trimmed
form that starts with none of `;`, `#`, `[`) without `=` or `:`. -/
def spec_syntax_error (line : List Nat) : Bool :=
  let t := lskip (rstrip (cstr line))
  if t.head? = some 91 then !(t.contains 93)
  else if t ≠ [] ∧ t.head? ≠ some 59 ∧ t.head? ≠ some 35 then !(t.contains 61 || t.contains 58)
  else false

/-- The value of a pair line in the wording of the specification: the text that
follows the first `=` or `:` up to, but excluding, the first `;` in that text
that is preceded by a whitespace byte (the whole text if there is none), with
leading and trailing whitespace removed. -/
def spec_pair_value (line : List Nat) : List Nat :=
  let text := (line.dropWhile (fun c => c != 61 && c != 58)).drop 1
  lskip (rstrip (text.take (find_chars_or_comment text none)))

/-- The input in which every line that takes a syntax-error branch and is selected
by `sel` is replaced by an empty line; the loop reaches `lines` with the given
line count and previous name. -/
def blank_malformed (sel : List Nat → Bool) : List (List Nat) → Nat → List Nat → List (List Nat)
  | [], _, _ => []
  | buf :: lines, lineno, prev_name =>
    let k := classify (lineno + 1) prev_name buf
    (if k = .malformed ∧ sel buf = true then [] else buf) ::
      blank_malformed sel lines (lineno + 1) (k.next_prev_name prev_name)

/-- Some whitespace byte of the string is immediately followed by `;`. -/
def has_ws_semicolon : List Nat → Bool
  | a :: b :: t => (isspace a && b == 59) || has_ws_semicolon (b :: t)
  | _ => false

/-- The branch with every string lower-cased. -/
def LineKind.lower : LineKind → LineKind
  | .ignored => .ignored
  | .continuation value => .continuation (value.map tolower)
  | .header sec => .header (sec.map tolower)
  | .pair name value => .pair (name.map tolower) (value.map tolower)
  | .malformed => .malformed

/-- A callback invocation with every string lower-cased. -/
def Call.lower (c : Call) : Call := (c.1.map tolower, c.2.1.map tolower, c.2.2.map tolower)

/-- The update that `value_handler` makes to `_values`, as a function of the key
and the value. -/
def store_value (m : List Nat → Option (List Nat)) (kv : List Nat × List Nat) :
    List Nat → Option (List Nat) :=
  Function.update m kv.1
    (some ((if ((m kv.1).getD []).length > 0 then (m kv.1).getD [] ++ str "\n"
            else (m kv.1).getD []) ++ kv.2))

/-- The key and value under which a callback invocation is stored. -/
def Call.kv (c : Call) : List Nat × List Nat := (make_key c.1 c.2.1, c.2.2)

/-- The branch that each line of `lines` takes, in order, when the loop reaches
them with the given line count and previous name. -/
def line_kinds : List (List Nat) → Nat → List Nat → List LineKind
  | [], _, _ => []
  | buf :: lines, lineno, prev_name =>
    classify (lineno + 1) prev_name buf ::
      line_kinds lines (lineno + 1) ((classify (lineno + 1) prev_name buf).next_prev_name prev_name)

/-! ## Array retrieval and numerals -/

/-- `std::getline(ss, substr, delim)` on a stream with the given bytes left: the
bytes extracted, and the bytes left when the delimiter was found (`none` when the
end of the stream was reached, which sets `eofbit`, so that `ss.good()` fails). -/
def getline (delim : Nat) : List Nat → List Nat × Option (List Nat)
  | [] => ([], none)
  | c :: s => if c = delim then ([], some s) else (c :: (getline delim s).1, (getline delim s).2)

/-- The two `erase` calls of `get_array` (and `trim`): whitespace is removed from
the start, then from the end. -/
def trim (s : List Nat) : List Nat := rstrip (lskip s)

/-- The C++ library extraction `_ss << substr; _ss >> value` for `long` (C++11,
classic locale, `std::ios_base::dec`), with `old` the content of `value` before:
when only whitespace is left the sentry fails and `value` is not written; else an
optional sign and decimal digits are read, a field without digits stores 0, and a
value out of range stores `LONG_MAX` or `LONG_MIN`. -/
def extract_long (s : List Nat) (old : Int) : Int :=
  let s0 := lskip s
  if s0 = [] then old
  else
    let neg : Bool := s0.head? = some 45
    let signed : Bool := s0.head? = some 45 || s0.head? = some 43
    let s1 := if signed then s0.drop 1 else s0
    let r := strtol_digits 10 s1 0 0
    if r.2 = 0 then 0
    else max LONG_MIN (min LONG_MAX (if neg then -(r.1 : Int) else (r.1 : Int)))

/-- The loop `while (ss.good())` of `get_array<long>` on a stream with the bytes `ss`
left, `value` holding the content of the variable `value`: the elements pushed.
`fuel` bounds the number of iterations. -/
def get_array_loop : Nat → List Nat → Int → List Int
  | 0, _, _ => []
  | fuel + 1, ss, value =>
    let substr := trim (getline 44 ss).1
    let value1 := extract_long substr value
    value1 ::
      (match (getline 44 ss).2 with
       | none => []
       | some rest => get_array_loop fuel rest value1)

/-- `INIReader::get_array<long>`. The variable `value` is declared without an
initializer: `uninit` is its indeterminate content. Every iteration that leaves
the stream good has consumed a comma, so `valstr.length + 1` iterations suffice. -/
def INIReader.get_array_long (r : INIReader) («section» name : List Nat) (uninit : Int) :
    List Int :=
  let valstr := r.get_string «section» name (str "")
  get_array_loop (valstr.length + 1) valstr uninit

/-- The number that a string of digits denotes in the given base. -/
def digits_value (base : Nat) (ds : List Nat) : Nat :=
  ds.foldl (fun acc c => acc * base + (digit_value c).getD 0) 0

/-- Whether the byte is a digit of the given base. -/
def is_digit (base : Nat) (c : Nat) : Bool :=
  match digit_value c with
  | some d => decide (d < base)
  | none => false

/-! ## The working string of a line -/

/-- The string `start` after `start = lskip(rstrip(start))` in the loop body: the
line without a byte-order mark on line 1, trimmed on both sides. -/
def line_start (lineno : Nat) (buf : List Nat) : List Nat :=
  let line := cstr buf
  let bom : Bool := lineno == 1 && line.take 3 == [0xEF, 0xBB, 0xBF]
  lskip (rstrip (if bom then line.drop 3 else line))

/-- The test `start > line` of the loop body: a byte-order mark or leading
whitespace was skipped. -/
def line_indented (lineno : Nat) (buf : List Nat) : Bool :=
  let line := cstr buf
  let bom : Bool := lineno == 1 && line.take 3 == [0xEF, 0xBB, 0xBF]
  bom || decide ((line_start lineno buf).length <
    (rstrip (if bom then line.drop 3 else line)).length)

/-- The branch taken by the loop body as a function of the working string `start`
and of the test `start > line`. -/
def classify_start (prev_name start : List Nat) (indented : Bool) : LineKind :=
  if start.head? = some 59 ∨ start.head? = some 35 then .ignored
  else if prev_name ≠ [] ∧ start ≠ [] ∧ indented = true then
    .continuation (rstrip (start.take (find_chars_or_comment start none)))
  else if start.head? = some 91 then
    if (start.drop 1).get? (find_chars_or_comment (start.drop 1) (some [93])) = some 93 then
      .header (strncpy0 ((start.drop 1).take (find_chars_or_comment (start.drop 1) (some [93])))
        MAX_SECTION)
    else .malformed
  else if start ≠ [] then
    if start.get? (find_chars_or_comment start (some [61, 58])) = some 61 ∨
        start.get? (find_chars_or_comment start (some [61, 58])) = some 58 then
      .pair (rstrip (start.take (find_chars_or_comment start (some [61, 58]))))
        (rstrip ((lskip (start.drop (find_chars_or_comment start (some [61, 58]) + 1))).take
          (find_chars_or_comment
            (lskip (start.drop (find_chars_or_comment start (some [61, 58]) + 1))) none)))
    else .malformed
  else .ignored

/-- For each line in order: the section and the previous name with which the loop
reaches it, and the branch it takes. -/
def line_steps : List (List Nat) → Nat → List Nat → List Nat →
    List (List Nat × List Nat × LineKind)
  | [], _, _, _ => []
  | buf :: lines, lineno, sec, prev_name =>
    (sec, prev_name, classify (lineno + 1) prev_name buf) ::
      line_steps lines (lineno + 1) ((classify (lineno + 1) prev_name buf).next_section sec)
        ((classify (lineno + 1) prev_name buf).next_prev_name prev_name)

/-- The segments separated by commas. -/
def comma_joined : List (List Nat) → List Nat
  | [] => []
  | [seg] => seg
  | seg :: seg2 :: rest => seg ++ 44 :: comma_joined (seg2 :: rest)

/-- The segment is an optionally signed decimal integer surrounded by optional
whitespace, and `z` is that integer. -/
def int_segment (seg : List Nat) (z : Int) : Prop :=
  ∃ ws1 sgn ds ws2 : List Nat, seg = ws1 ++ sgn ++ ds ++ ws2 ∧
    (∀ c ∈ ws1, isspace c = true) ∧ (∀ c ∈ ws2, isspace c = true) ∧
    (sgn = [] ∨ sgn = [43] ∨ sgn = [45]) ∧ ds ≠ [] ∧ (∀ c ∈ ds, 48 ≤ c ∧ c ≤ 57) ∧
    z = if sgn = [45] then -((digits_value 10 ds : Nat) : Int) else ((digits_value 10 ds : Nat) : Int)

/-- Whether the branch assigns the previous name: a name=value line sets it, a
section header clears it. -/
def LineKind.assigns_name : LineKind → Bool
  | .pair _ _ => true
  | .header _ => true
  | _ => false

/-! ## The loop body and its branches agree -/

theorem ini_parse_line_eq {υ : Type} (handler : Handler υ) (st : ParseState υ) (buf : List Nat) :
    ini_parse_line handler st buf = st.after handler (classify (st.lineno + 1) st.prev_name buf) := by
  unfold ini_parse_line classify
  simp only []
  split_ifs <;> simp only [ParseState.after, if_true, if_false, and_self, *]

/-! ## Strings -/

theorem cstr_eq_self {s : List Nat} (h : 0 ∉ s) : cstr s = s := by
  unfold cstr
  rw [List.takeWhile_eq_self_iff]
  intro x hx
  have : x ≠ 0 := fun h0 => h (h0 ▸ hx)
  simpa using this

theorem rstrip_eq_rdropWhile (s : List Nat) : rstrip s = s.rdropWhile isspace := rfl

theorem rstrip_eq_self {s : List Nat} (h : ∀ c, s.getLast? = some c → isspace c = false) :
    rstrip s = s := by
  rw [rstrip_eq_rdropWhile, List.rdropWhile_eq_self_iff]
  intro hl
  have := h (s.getLast hl) (List.getLast?_eq_getLast s hl)
  simp [this]

theorem rstrip_append_ws (s : List Nat) {t : List Nat} (ht : ∀ c ∈ t, isspace c = true) :
    rstrip (s ++ t) = rstrip s := by
  unfold rstrip
  have h : List.dropWhile isspace t.reverse = [] := by
    rw [List.dropWhile_eq_nil_iff]
    intro x hx
    exact ht x (List.mem_reverse.mp hx)
  rw [List.reverse_append, List.dropWhile_append, h]
  simp

theorem lskip_eq_self {s : List Nat} (h : ∀ c, s.head? = some c → isspace c = false) :
    lskip s = s := by
  unfold lskip
  cases s with
  | nil => rfl
  | cons a t =>
    have := h a rfl
    simp [List.dropWhile_cons, this]

theorem find_loop_stop (cs : List Nat) (w : Bool) {c : Nat} (t : List Nat) (hc : c ∈ cs) :
    find_chars_or_comment_loop (some cs) w (c :: t) = 0 := by
  simp [find_chars_or_comment_loop, hc]

theorem find_loop_pass (chars : Option (List Nat)) (t : List Nat)
    (ht : ∀ w, find_chars_or_comment_loop chars w t = 0) :
    ∀ (s : List Nat) (w : Bool), (∀ cs, chars = some cs → ∀ c ∈ s, c ∉ cs) →
      has_ws_semicolon s = false → (w = true → s.head? ≠ some 59) →
      find_chars_or_comment_loop chars w (s ++ t) = s.length := by
  intro s
  induction s with
  | nil => intro w _ _ _; simpa using ht w
  | cons a s ih =>
    intro w hfree hsemi hw
    have hrec : find_chars_or_comment_loop chars (isspace a) (s ++ t) = s.length := by
      apply ih
      · intro cs hcs c hc
        exact hfree cs hcs c (List.mem_cons_of_mem _ hc)
      · cases s with
        | nil => rfl
        | cons b s' =>
          simp only [has_ws_semicolon, Bool.or_eq_false_iff] at hsemi
          exact hsemi.2
      · intro ha
        cases s with
        | nil => simp
        | cons b s' =>
          simp only [has_ws_semicolon, Bool.or_eq_false_iff, ha, Bool.true_and] at hsemi
          simpa using hsemi.1
    have h2 : (w && decide (a ∈ INI_INLINE_COMMENT_PREFIXES)) = false := by
      cases w with
      | false => rfl
      | true =>
        have := hw rfl
        simpa [INI_INLINE_COMMENT_PREFIXES] using this
    cases chars with
    | none => simp [find_chars_or_comment_loop, h2, hrec]
    | some cs =>
      have h1 : a ∉ cs := hfree cs rfl a (List.mem_cons_self _ _)
      simp [find_chars_or_comment_loop, h1, h2, hrec]

/-! ## Well-formed header and pair lines -/

theorem classify_header (lineno : Nat) (prev_name S t : List Nat)
    (hS0 : 0 ∉ S) (hSb : 93 ∉ S) (hSc : has_ws_semicolon S = false)
    (ht : ∀ c ∈ t, isspace c = true) :
    classify lineno prev_name (91 :: S ++ 93 :: t) = .header (S.take 49) := by
  have ht0 : 0 ∉ t := fun h => by simpa [isspace] using ht 0 h
  have hc : cstr (91 :: S ++ 93 :: t) = 91 :: S ++ 93 :: t := by
    apply cstr_eq_self
    simp [hS0, ht0]
  have hr : rstrip (91 :: S ++ 93 :: t) = 91 :: S ++ [93] := by
    have e : 91 :: S ++ 93 :: t = (91 :: S ++ [93]) ++ t := by simp
    rw [e, rstrip_append_ws _ ht]
    apply rstrip_eq_self
    intro c hc
    have e2 : 91 :: S ++ [93] = (91 :: S) ++ [93] := rfl
    rw [e2, List.getLast?_append] at hc
    have : c = 93 := by simpa using hc.symm
    simp [this, isspace]
  have hl : lskip (91 :: S ++ [93]) = 91 :: S ++ [93] := by
    apply lskip_eq_self
    intro c hc
    have : c = 91 := by simpa using hc.symm
    simp [this, isspace]
  have hf : find_chars_or_comment (S ++ [93]) (some [93]) = S.length := by
    unfold find_chars_or_comment
    apply find_loop_pass
    · intro w
      exact find_loop_stop [93] w [] (by simp)
    · intro cs hcs c hc
      cases hcs
      intro h93
      have : c = 93 := by simpa using h93
      exact hSb (this ▸ hc)
    · exact hSc
    · intro h; cases h
  unfold classify
  simp only [hc]
  have hb : (lineno == 1 && List.take 3 (91 :: S ++ 93 :: t) == [239, 187, 191]) = false := by
    cases S with
    | nil => cases t with
      | nil => simp
      | cons b t' => simp
    | cons a S' => simp
  simp only [hb, Bool.false_eq_true, if_false, hr, hl, Bool.false_or]
  simp [hf, strncpy0, MAX_SECTION]

theorem classify_pair (lineno : Nat) (prev_name N V t : List Nat) (hline : lineno ≠ 1)
    (hN0 : 0 ∉ N) (hV0 : 0 ∉ V) (hNe : 61 ∉ N) (hNc : 58 ∉ N)
    (hNh : N.head? ≠ some 59 ∧ N.head? ≠ some 35 ∧ N.head? ≠ some 91)
    (hNl : ∀ c, N.head? = some c → isspace c = false)
    (hNr : ∀ c, N.getLast? = some c → isspace c = false)
    (hVl : ∀ c, V.head? = some c → isspace c = false)
    (hVr : ∀ c, V.getLast? = some c → isspace c = false)
    (hNs : has_ws_semicolon N = false) (hVs : has_ws_semicolon V = false)
    (ht : ∀ c ∈ t, isspace c = true) :
    classify lineno prev_name (N ++ 61 :: V ++ t) = .pair N V := by
  have ht0 : 0 ∉ t := fun h => by simpa [isspace] using ht 0 h
  have hc : cstr (N ++ 61 :: V ++ t) = N ++ 61 :: V ++ t := by
    apply cstr_eq_self
    simp [hN0, hV0, ht0]
  have hr : rstrip (N ++ 61 :: V ++ t) = N ++ 61 :: V := by
    have e : N ++ 61 :: V ++ t = (N ++ 61 :: V) ++ t := by simp
    rw [e, rstrip_append_ws _ ht]
    apply rstrip_eq_self
    intro c hc
    rw [List.getLast?_append, List.getLast?_cons] at hc
    cases hV : V.getLast? with
    | none =>
      rw [hV] at hc
      have : c = 61 := by simpa using hc.symm
      simp [this, isspace]
    | some v =>
      rw [hV] at hc
      have : c = v := by simpa using hc.symm
      exact this ▸ hVr v hV
  have hl : lskip (N ++ 61 :: V) = N ++ 61 :: V := by
    apply lskip_eq_self
    intro c hc
    cases N with
    | nil =>
      have : c = 61 := by simpa using hc.symm
      simp [this, isspace]
    | cons a N' =>
      have : c = a := by simpa using hc.symm
      exact this ▸ hNl a rfl
  have hf : find_chars_or_comment (N ++ 61 :: V) (some [61, 58]) = N.length := by
    unfold find_chars_or_comment
    apply find_loop_pass
    · intro w
      exact find_loop_stop [61, 58] w V (by simp)
    · intro cs hcs c hc
      cases hcs
      intro hm
      have : c = 61 ∨ c = 58 := by simpa using hm
      rcases this with h | h
      · exact hNe (h ▸ hc)
      · exact hNc (h ▸ hc)
    · exact hNs
    · intro h; cases h
  have hfv : find_chars_or_comment V none = V.length := by
    unfold find_chars_or_comment
    have := find_loop_pass none [] (fun w => by simp [find_chars_or_comment_loop]) V false
      (fun cs hcs => by cases hcs) hVs (fun h => by cases h)
    simpa using this
  have hb : (lineno == 1 && List.take 3 (N ++ 61 :: V ++ t) == [239, 187, 191]) = false := by
    simp [hline]
  have hh : (N ++ 61 :: V).head? ≠ some 59 ∧ (N ++ 61 :: V).head? ≠ some 35 ∧
      (N ++ 61 :: V).head? ≠ some 91 := by
    cases N with
    | nil => simp
    | cons a N' => simpa using hNh
  have hne : N ++ 61 :: V ≠ [] := by simp
  unfold classify
  simp only [hc, hb, Bool.false_eq_true, if_false, hr, hl, Bool.false_or, hf, hh.1, hh.2.1,
    hh.2.2, or_self, lt_self_iff_false, decide_False, and_false, ne_eq, hne, not_false_eq_true,
    if_true]
  have hg : (N ++ 61 :: V).get? N.length = some 61 := by
    rw [List.get?_eq_getElem?, List.getElem?_append_right (le_refl _)]
    simp
  have hd : List.drop (N.length + 1) (N ++ 61 :: V) = V := by
    rw [List.drop_append_eq_append_drop]
    simp
  simp only [hg, true_or, if_true, hd, lskip_eq_self hVl, hfv, List.take_length,
    rstrip_eq_self hVr, List.take_left' rfl, rstrip_eq_self hNr]

theorem of_file_eq (file : List Nat) :
    INIReader.of_file file = INIReader.of_lines (fgets_lines file.length file) := rfl

theorem ini_parse_loop_cons {υ : Type} (handler : Handler υ) (st : ParseState υ)
    (buf : List Nat) (lines : List (List Nat)) :
    ini_parse_loop handler st (buf :: lines) =
      ini_parse_loop handler (st.after handler (classify (st.lineno + 1) st.prev_name buf))
        lines := by
  simp [ini_parse_loop, ini_parse_line_eq]

theorem ini_parse_loop_nil {υ : Type} (handler : Handler υ) (st : ParseState υ) :
    ini_parse_loop handler st [] = st := rfl

/-- Round trip at the level of line buffers: for `S`, `N`, `V` as in C1 the store
built from the buffers `[S]` and `N=V`, each followed by any whitespace-only line
ending `t1`, `t2`, has no error and returns `V` for (`S`, `N`). -/
theorem round_trip_lines (S N V t1 t2 d : List Nat)
    (hS0 : 0 ∉ S) (hN0 : 0 ∉ N) (hV0 : 0 ∉ V)
    (hSb : 93 ∉ S) (hSlen : S.length ≤ 49)
    (hNe : 61 ∉ N) (hNc : 58 ∉ N)
    (hNh : N.head? ≠ some 59 ∧ N.head? ≠ some 35 ∧ N.head? ≠ some 91)
    (hNl : ∀ c, N.head? = some c → isspace c = false)
    (hNr : ∀ c, N.getLast? = some c → isspace c = false)
    (hVl : ∀ c, V.head? = some c → isspace c = false)
    (hVr : ∀ c, V.getLast? = some c → isspace c = false)
    (hSs : has_ws_semicolon S = false) (hNs : has_ws_semicolon N = false)
    (hVs : has_ws_semicolon V = false)
    (ht1 : ∀ c ∈ t1, isspace c = true) (ht2 : ∀ c ∈ t2, isspace c = true) :
    (INIReader.of_lines [91 :: S ++ 93 :: t1, N ++ 61 :: V ++ t2]).error = 0 ∧
    (INIReader.of_lines [91 :: S ++ 93 :: t1, N ++ 61 :: V ++ t2]).get_string S N d = V := by
  have h1 := classify_header 1 [] S t1 hS0 hSb hSs ht1
  have h2 := classify_pair 2 [] N V t2 (by decide) hN0 hV0 hNe hNc hNh hNl hNr hVl hVr hNs hVs ht2
  have hS : List.take 49 S = S := List.take_of_length_le hSlen
  have hst : ini_parse_loop value_handler (ParseState.init INIReader.empty)
      [91 :: S ++ 93 :: t1, N ++ 61 :: V ++ t2] =
      { user := (value_handler INIReader.empty S N V).2, «section» := S,
        prev_name := strncpy0 N MAX_NAME, lineno := 2, error := 0 } := by
    rw [ini_parse_loop_cons, ini_parse_loop_cons, ini_parse_loop_nil]
    simp only [ParseState.init, h1, ParseState.after, hS, h2]
    simp [value_handler]
  have hv : (value_handler INIReader.empty S N V).2._values (make_key S N) = some V := by
    simp only [value_handler, INIReader.empty, Option.getD_none, List.length_nil,
      gt_iff_lt, lt_self_iff_false, if_false, List.nil_append, Function.update_same]
  constructor
  · simp only [INIReader.error, INIReader.of_lines, ini_parse_stream, hst, Nat.cast_zero]
  · simp only [INIReader.get_string, INIReader.of_lines, ini_parse_stream, hst, map_count,
      map_at, hv, Option.isSome_some, if_true, Option.getD_some, Nat.lt_one_iff, gt_iff_lt,
      zero_lt_one]

/-! ## The loop as a scan -/

theorem after_lineno {υ : Type} (handler : Handler υ) (st : ParseState υ) (k : LineKind) :
    (st.after handler k).lineno = st.lineno + 1 := by
  cases k <;> rfl

theorem after_section {υ : Type} (handler : Handler υ) (st : ParseState υ) (k : LineKind) :
    (st.after handler k).«section» = k.next_section st.«section» := by
  cases k <;> rfl

theorem after_prev_name {υ : Type} (handler : Handler υ) (st : ParseState υ) (k : LineKind) :
    (st.after handler k).prev_name = k.next_prev_name st.prev_name := by
  cases k <;> rfl

theorem after_user {υ : Type} (handler : Handler υ) (st : ParseState υ) (k : LineKind) :
    (st.after handler k).user =
      (k.call st.«section» st.prev_name).toList.foldl
        (fun u c => (handler u c.1 c.2.1 c.2.2).2) st.user := by
  cases k <;> rfl

theorem loop_user {υ : Type} (handler : Handler υ) (lines : List (List Nat)) :
    ∀ st : ParseState υ, (ini_parse_loop handler st lines).user =
      (scan_calls lines st.«section» st.prev_name st.lineno).foldl
        (fun u c => (handler u c.1 c.2.1 c.2.2).2) st.user := by
  induction lines with
  | nil => intro st; rfl
  | cons buf lines ih =>
    intro st
    rw [ini_parse_loop_cons, ih, scan_calls, List.foldl_append, after_user, after_section,
      after_prev_name, after_lineno]

theorem foldl_record (calls : List Call) : ∀ acc : List Call,
    calls.foldl (fun u c => (record u c.1 c.2.1 c.2.2).2) acc = acc ++ calls := by
  induction calls with
  | nil => intro acc; simp
  | cons c calls ih =>
    intro acc
    rw [List.foldl_cons, ih]
    simp [record]

theorem ini_calls_eq_scan (lines : List (List Nat)) :
    ini_calls lines = scan_calls lines [] [] 0 := by
  simp [ini_calls, ini_parse_stream, loop_user, foldl_record, ParseState.init]

theorem stream_user {υ : Type} (handler : Handler υ) (user : υ) (lines : List (List Nat)) :
    (ini_parse_stream lines handler user).2 =
      (ini_calls lines).foldl (fun u c => (handler u c.1 c.2.1 c.2.2).2) user := by
  simp [ini_calls_eq_scan, ini_parse_stream, loop_user, ParseState.init]

theorem classify_nil (lineno : Nat) (prev_name : List Nat) :
    classify lineno prev_name [] = .ignored := by
  simp [classify, cstr, rstrip, lskip]

theorem scan_blank (sel : List Nat → Bool) (lines : List (List Nat)) :
    ∀ (sec prev_name : List Nat) (lineno : Nat),
      scan_calls (blank_malformed sel lines lineno prev_name) sec prev_name lineno =
        scan_calls lines sec prev_name lineno := by
  induction lines with
  | nil => intro _ _ _; rfl
  | cons buf lines ih =>
    intro sec prev_name lineno
    by_cases h : classify (lineno + 1) prev_name buf = .malformed ∧ sel buf = true
    · simp only [blank_malformed, h, and_self, if_true, scan_calls, classify_nil,
        LineKind.call, LineKind.next_section, LineKind.next_prev_name, ih]
    · simp only [blank_malformed, h, if_false, scan_calls, ih]

theorem line_error {υ : Type} (handler : Handler υ) (st : ParseState υ) (buf : List Nat) :
    (ini_parse_line handler st buf).error =
      if st.error ≠ 0 then st.error
      else if line_fails handler st buf = true then st.lineno + 1 else 0 := by
  rw [ini_parse_line_eq]
  unfold line_fails
  cases classify (st.lineno + 1) st.prev_name buf <;>
    simp only [ParseState.after] <;> split_ifs <;> simp_all

theorem line_lineno {υ : Type} (handler : Handler υ) (st : ParseState υ) (buf : List Nat) :
    (ini_parse_line handler st buf).lineno = st.lineno + 1 := by
  rw [ini_parse_line_eq, after_lineno]

theorem loop_error {υ : Type} (handler : Handler υ) (lines : List (List Nat)) :
    ∀ st : ParseState υ, (ini_parse_loop handler st lines).error =
      if st.error ≠ 0 then st.error
      else if true ∈ line_results handler st lines
        then st.lineno + (line_results handler st lines).indexOf true + 1
        else 0 := by
  induction lines with
  | nil =>
    intro st
    by_cases he : st.error = 0 <;> simp [ini_parse_loop, line_results, he]
  | cons buf lines ih =>
    intro st
    have hc : ini_parse_loop handler st (buf :: lines) =
        ini_parse_loop handler (ini_parse_line handler st buf) lines := rfl
    rw [hc, ih, line_error, line_lineno]
    by_cases he : st.error = 0
    · by_cases hf : line_fails handler st buf = true
      · simp [he, hf, line_results]
      · have hf' : line_fails handler st buf = false := by simpa using hf
        by_cases h1 : true ∈ line_results handler (ini_parse_line handler st buf) lines
        · have h2 : true ∈ false :: line_results handler (ini_parse_line handler st buf) lines :=
            List.mem_cons_of_mem _ h1
          simp only [he, hf', line_results, ne_eq, not_true_eq_false, if_false,
            Bool.false_eq_true, h1, h2, if_true]
          rw [List.indexOf_cons_ne _ (by decide)]
          omega
        · have h2 : true ∉ false :: line_results handler (ini_parse_line handler st buf) lines := by
            simpa using h1
          simp only [he, hf', line_results, ne_eq, not_true_eq_false, if_false,
            Bool.false_eq_true, h1, h2]
    · simp [he]

/-! ## Lower-casing commutes with the scan -/

theorem tolower_eq_iff {k : Nat} (hk : k < 65 ∨ 90 < k) (hk' : k < 97 ∨ 122 < k) (c : Nat) :
    tolower c = k ↔ c = k := by
  unfold tolower
  split_ifs <;> omega

theorem isspace_tolower (c : Nat) : isspace (tolower c) = isspace c := by
  unfold tolower
  split_ifs with h
  · have h1 : isspace (c + 32) = false := by
      simp only [isspace, Bool.or_eq_false_iff, Bool.and_eq_false_iff, beq_eq_false_iff_ne,
        decide_eq_false_iff_not]
      omega
    have h2 : isspace c = false := by
      simp only [isspace, Bool.or_eq_false_iff, Bool.and_eq_false_iff, beq_eq_false_iff_ne,
        decide_eq_false_iff_not]
      omega
    rw [h1, h2]
  · rfl

theorem isspace_comp_tolower : isspace ∘ tolower = isspace := by
  funext c
  exact isspace_tolower c

theorem cstr_lower (s : List Nat) : cstr (s.map tolower) = (cstr s).map tolower := by
  unfold cstr
  rw [List.takeWhile_map]
  congr 2
  funext c
  have := tolower_eq_iff (k := 0) (by omega) (by omega) c
  rw [Function.comp_apply, Bool.eq_iff_iff]
  simp [this]

theorem lskip_lower (s : List Nat) : lskip (s.map tolower) = (lskip s).map tolower := by
  unfold lskip
  rw [List.dropWhile_map, isspace_comp_tolower]

theorem rstrip_lower (s : List Nat) : rstrip (s.map tolower) = (rstrip s).map tolower := by
  unfold rstrip
  rw [← List.map_reverse, List.dropWhile_map, isspace_comp_tolower, List.map_reverse]

theorem find_loop_lower (chars : Option (List Nat))
    (hchars : ∀ cs, chars = some cs → ∀ c, tolower c ∈ cs ↔ c ∈ cs) :
    ∀ (s : List Nat) (w : Bool),
      find_chars_or_comment_loop chars w (s.map tolower) =
        find_chars_or_comment_loop chars w s := by
  intro s
  induction s with
  | nil => intro w; rfl
  | cons a s ih =>
    intro w
    have h59 : tolower a ∈ INI_INLINE_COMMENT_PREFIXES ↔ a ∈ INI_INLINE_COMMENT_PREFIXES := by
      simp only [INI_INLINE_COMMENT_PREFIXES, List.mem_singleton]
      exact tolower_eq_iff (by omega) (by omega) a
    cases chars with
    | none =>
      simp only [List.map_cons, find_chars_or_comment_loop, ih, isspace_tolower, h59]
    | some cs =>
      have := hchars cs rfl a
      simp only [List.map_cons, find_chars_or_comment_loop, ih, isspace_tolower, h59, this]

theorem find_lower (s : List Nat) (chars : Option (List Nat))
    (hchars : ∀ cs, chars = some cs → ∀ c, tolower c ∈ cs ↔ c ∈ cs) :
    find_chars_or_comment (s.map tolower) chars = find_chars_or_comment s chars :=
  find_loop_lower chars hchars s false

theorem head_lower_iff {k : Nat} (hk : k < 65 ∨ 90 < k) (hk' : k < 97 ∨ 122 < k)
    (s : List Nat) : (s.map tolower).head? = some k ↔ s.head? = some k := by
  cases s with
  | nil => simp
  | cons a t => simpa using tolower_eq_iff hk hk' a

theorem get_lower_iff {k : Nat} (hk : k < 65 ∨ 90 < k) (hk' : k < 97 ∨ 122 < k)
    (s : List Nat) (i : Nat) : (s.map tolower).get? i = some k ↔ s.get? i = some k := by
  rw [List.get?_eq_getElem?, List.get?_eq_getElem?, List.getElem?_map]
  cases h : s[i]? with
  | none => simp
  | some a => simpa using tolower_eq_iff hk hk' a

theorem bom_lower (s : List Nat) :
    ((s.map tolower).take 3 == [239, 187, 191]) = (s.take 3 == [239, 187, 191]) := by
  have e1 := tolower_eq_iff (k := 239) (by omega) (by omega)
  have e2 := tolower_eq_iff (k := 187) (by omega) (by omega)
  have e3 := tolower_eq_iff (k := 191) (by omega) (by omega)
  rw [Bool.eq_iff_iff]
  rcases s with _ | ⟨a, _ | ⟨b, _ | ⟨c, t⟩⟩⟩ <;> simp [e1, e2, e3]

theorem classify_lower (lineno : Nat) (prev_name buf : List Nat) :
    classify lineno (prev_name.map tolower) (buf.map tolower) =
      (classify lineno prev_name buf).lower := by
  have hf1 : ∀ s, find_chars_or_comment (List.map tolower s) none = find_chars_or_comment s none :=
    fun s => find_lower s none (fun cs h => by cases h)
  have hf2 : ∀ s, find_chars_or_comment (List.map tolower s) (some [93]) =
      find_chars_or_comment s (some [93]) := fun s =>
    find_lower s (some [93]) (fun cs h c => by
      cases h
      simpa using tolower_eq_iff (k := 93) (by omega) (by omega) c)
  have hf3 : ∀ s, find_chars_or_comment (List.map tolower s) (some [61, 58]) =
      find_chars_or_comment s (some [61, 58]) := fun s =>
    find_lower s (some [61, 58]) (fun cs h c => by
      cases h
      have a1 := tolower_eq_iff (k := 61) (by omega) (by omega) c
      have a2 := tolower_eq_iff (k := 58) (by omega) (by omega) c
      simp [a1, a2])
  have h59 := head_lower_iff (k := 59) (by omega) (by omega)
  have h35 := head_lower_iff (k := 35) (by omega) (by omega)
  have h91 := head_lower_iff (k := 91) (by omega) (by omega)
  have g93 := get_lower_iff (k := 93) (by omega) (by omega)
  have g61 := get_lower_iff (k := 61) (by omega) (by omega)
  have g58 := get_lower_iff (k := 58) (by omega) (by omega)
  unfold classify
  simp only [cstr_lower, bom_lower]
  generalize (lineno == 1 && List.take 3 (cstr buf) == [239, 187, 191]) = bom
  cases bom <;>
  simp only [Bool.false_eq_true, if_true, if_false,
    ← List.map_drop, rstrip_lower, lskip_lower, h59, h35, h91,
    List.length_map, hf1, hf2, hf3, g93, g61, g58, ← List.map_take, ne_eq,
    List.map_eq_nil_iff, strncpy0] <;>
  split_ifs <;> rfl

theorem scan_lower (lines : List (List Nat)) : ∀ (sec prev_name : List Nat) (lineno : Nat),
    scan_calls (lines.map (List.map tolower)) (sec.map tolower) (prev_name.map tolower) lineno =
      (scan_calls lines sec prev_name lineno).map Call.lower := by
  induction lines with
  | nil => intro _ _ _; rfl
  | cons buf lines ih =>
    intro sec prev_name lineno
    simp only [List.map_cons, scan_calls, classify_lower, List.map_append]
    cases classify (lineno + 1) prev_name buf with
    | ignored => simpa [LineKind.lower, LineKind.call, LineKind.next_section,
        LineKind.next_prev_name] using ih sec prev_name (lineno + 1)
    | malformed => simpa [LineKind.lower, LineKind.call, LineKind.next_section,
        LineKind.next_prev_name] using ih sec prev_name (lineno + 1)
    | continuation value => simpa [LineKind.lower, LineKind.call, LineKind.next_section,
        LineKind.next_prev_name, Call.lower] using ih sec prev_name (lineno + 1)
    | header s =>
      have := ih s [] (lineno + 1)
      simpa [LineKind.lower, LineKind.call, LineKind.next_section,
        LineKind.next_prev_name] using this
    | pair name value =>
      have := ih sec (strncpy0 name MAX_NAME) (lineno + 1)
      simp only [strncpy0, List.map_take] at this
      simpa [LineKind.lower, LineKind.call, LineKind.next_section,
        LineKind.next_prev_name, Call.lower, strncpy0] using this

theorem ini_calls_lower (lines : List (List Nat)) :
    ini_calls (lines.map (List.map tolower)) = (ini_calls lines).map Call.lower := by
  rw [ini_calls_eq_scan, ini_calls_eq_scan]
  exact scan_lower lines [] [] 0

theorem make_key_eq (sec name : List Nat) :
    make_key sec name = sec.map tolower ++ 61 :: name.map tolower := by
  simp [make_key, str, tolower]

theorem kv_eq_of_lower : ∀ l l' : List Call, l.map Call.lower = l'.map Call.lower →
    l.map (fun c => c.2.2) = l'.map (fun c => c.2.2) → l.map Call.kv = l'.map Call.kv := by
  intro l
  induction l with
  | nil =>
    intro l' h _
    cases l' with
    | nil => rfl
    | cons c' t' => simp at h
  | cons c t ih =>
    intro l' h hv
    cases l' with
    | nil => simp at h
    | cons c' t' =>
      simp only [List.map_cons, List.cons.injEq] at h hv ⊢
      refine ⟨?_, ih t' h.2 hv.2⟩
      have h1 := h.1
      simp only [Call.lower, Prod.mk.injEq] at h1
      simp only [Call.kv, make_key_eq, h1.1, h1.2.1, hv.1]

theorem value_handler_values (r : INIReader) (c : Call) :
    (value_handler r c.1 c.2.1 c.2.2).2._values = store_value r._values c.kv := rfl

theorem store_values (calls : List Call) : ∀ r : INIReader,
    (calls.foldl (fun u c => (value_handler u c.1 c.2.1 c.2.2).2) r)._values =
      (calls.map Call.kv).foldl store_value r._values := by
  induction calls with
  | nil => intro r; rfl
  | cons c calls ih =>
    intro r
    rw [List.foldl_cons, ih, value_handler_values]
    rfl

theorem of_lines_values (lines : List (List Nat)) :
    (INIReader.of_lines lines)._values =
      ((ini_calls lines).map Call.kv).foldl store_value (fun _ => none) := by
  simp only [INIReader.of_lines, stream_user, store_values]
  rfl

theorem get_string_congr (r r' : INIReader) (h : r._values = r'._values)
    (sec name d : List Nat) : r.get_string sec name d = r'.get_string sec name d := by
  simp only [INIReader.get_string, h]

/-! ## Reading a file line by line -/

theorem fgets_read_append : ∀ (room : Nat) (s : List Nat),
    (fgets_read room s).1 ++ (fgets_read room s).2 = s := by
  intro room
  induction room with
  | zero => intro s; rfl
  | succ room ih =>
    intro s
    cases s with
    | nil => rfl
    | cons c s =>
      simp only [fgets_read]
      split_ifs
      · rfl
      · simp [ih s]

theorem fgets_read_rest_lt : ∀ (room : Nat) (c : Nat) (s : List Nat),
    (fgets_read (room + 1) (c :: s)).2.length < (c :: s).length := by
  intro room c s
  have h := congrArg List.length (fgets_read_append (room + 1) (c :: s))
  have h1 : 0 < (fgets_read (room + 1) (c :: s)).1.length := by
    simp only [fgets_read]
    split_ifs <;> simp
  rw [List.length_append] at h
  omega

/-- The calls of `fgets` made with `fuel` at least the length of the file return the
whole file: the `fuel` of `ini_parse_file` and `INIReader.of_file` never runs out. -/
theorem fgets_lines_join : ∀ (fuel : Nat) (file : List Nat), file.length ≤ fuel →
    (fgets_lines fuel file).flatten = file := by
  intro fuel
  induction fuel with
  | zero =>
    intro file h
    have : file = [] := List.length_eq_zero.mp (Nat.le_zero.mp h)
    subst this
    rfl
  | succ fuel ih =>
    intro file h
    cases file with
    | nil => rfl
    | cons c s =>
      have hlt : (fgets_read (200 - 1) (c :: s)).2.length < (c :: s).length :=
        fgets_read_rest_lt 198 c s
      have happ := fgets_read_append (200 - 1) (c :: s)
      simp only [fgets_lines, fgets, INI_MAX_LINE, List.cons_ne_nil, if_false,
        List.flatten_cons]
      rw [ih (fgets_read (200 - 1) (c :: s)).2 (by simp only [List.length_cons] at h hlt; omega)]
      exact happ

/-! ## Sections -/

theorem mem_sections_fold (s : List Nat) (calls : List Call) : ∀ r : INIReader,
    s ∈ (calls.foldl (fun u c => (value_handler u c.1 c.2.1 c.2.2).2) r)._sections ↔
      s ∈ r._sections ∨ ∃ c ∈ calls, c.1 = s := by
  induction calls with
  | nil => intro r; simp
  | cons c calls ih =>
    intro r
    rw [List.foldl_cons, ih]
    have h : s ∈ (value_handler r c.1 c.2.1 c.2.2).2._sections ↔ s ∈ r._sections ∨ c.1 = s := by
      simp only [value_handler]
      split_ifs with hm
      · constructor
        · intro h; exact Or.inl h
        · rintro (h | h)
          · exact h
          · exact h ▸ hm
      · simp [eq_comm]
    rw [h]
    simp only [List.mem_cons, exists_eq_or_imp]
    tauto

theorem of_lines_sections (lines : List (List Nat)) :
    (INIReader.of_lines lines).sections =
      ((ini_calls lines).foldl (fun u c => (value_handler u c.1 c.2.1 c.2.2).2)
        INIReader.empty)._sections := by
  simp only [INIReader.sections, INIReader.of_lines, stream_user]

/-- The entries of `line_kinds` are the branches that the loop takes: entry `i` is the
branch of line `i` in the state that the loop has reached after the lines before
it, whatever the handler. -/
theorem line_kinds_getElem {υ : Type} (handler : Handler υ) (lines : List (List Nat)) :
    ∀ (st : ParseState υ) (i : Nat) (buf : List Nat), lines[i]? = some buf →
      (line_kinds lines st.lineno st.prev_name)[i]? =
        some (classify ((ini_parse_loop handler st (lines.take i)).lineno + 1)
          (ini_parse_loop handler st (lines.take i)).prev_name buf) := by
  induction lines with
  | nil => intro _ i _ h; simp at h
  | cons b lines ih =>
    intro st i buf h
    cases i with
    | zero =>
      simp only [List.getElem?_cons_zero, Option.some.injEq] at h
      subst h
      simp [line_kinds, ini_parse_loop_nil]
    | succ i =>
      simp only [List.getElem?_cons_succ] at h
      have := ih (st.after handler (classify (st.lineno + 1) st.prev_name b)) i buf h
      rw [after_lineno, after_prev_name] at this
      simp only [line_kinds, List.getElem?_cons_succ, List.take_succ_cons, ini_parse_loop_cons,
        this]

theorem pair_call_mem (lines : List (List Nat)) :
    ∀ (lineno : Nat) (prev_name sec : List Nat) (k : Nat) (name value : List Nat),
      (line_kinds lines lineno prev_name)[k]? = some (.pair name value) →
      (∀ j, j < k → ∀ s, (line_kinds lines lineno prev_name)[j]? ≠ some (.header s)) →
      (sec, name, value) ∈ scan_calls lines sec prev_name lineno := by
  induction lines with
  | nil => intro _ _ _ k _ _ h _; simp [line_kinds] at h
  | cons buf lines ih =>
    intro lineno prev_name sec k name value hk hno
    cases k with
    | zero =>
      simp only [line_kinds, List.getElem?_cons_zero, Option.some.injEq] at hk
      simp [scan_calls, hk, LineKind.call]
    | succ k =>
      simp only [line_kinds, List.getElem?_cons_succ] at hk
      have h0 := hno 0 (Nat.succ_pos k)
      simp only [line_kinds, List.getElem?_cons_zero, ne_eq, Option.some.injEq] at h0
      have hsec : (classify (lineno + 1) prev_name buf).next_section sec = sec := by
        cases hc : classify (lineno + 1) prev_name buf with
        | header s => exact absurd hc (h0 s)
        | ignored => rfl
        | continuation v => rfl
        | pair a b => rfl
        | malformed => rfl
      simp only [scan_calls, hsec, List.mem_append]
      right
      apply ih _ _ _ k name value hk
      intro j hj s
      have := hno (j + 1) (Nat.succ_lt_succ hj) s
      simpa only [line_kinds, List.getElem?_cons_succ] using this

/-! ## Files whose lines fit the buffer, and lower-casing a file -/

theorem fgets_read_line : ∀ (s : List Nat) (room : Nat) (rest : List Nat), 10 ∉ s →
    s.length < room → fgets_read room (s ++ 10 :: rest) = (s ++ [10], rest) := by
  intro s
  induction s with
  | nil =>
    intro room rest _ hlen
    cases room with
    | zero => simp at hlen
    | succ room => simp [fgets_read]
  | cons a s ih =>
    intro room rest h10 hlen
    cases room with
    | zero => simp at hlen
    | succ room =>
      have ha : a ≠ 10 := fun e => h10 (e ▸ List.mem_cons_self _ _)
      have hs : 10 ∉ s := fun e => h10 (List.mem_cons_of_mem _ e)
      have hl : s.length < room := by simpa using hlen
      simp [fgets_read, ha, ih room rest hs hl]

theorem fgets_lines_line (fuel : Nat) (s rest : List Nat) (h10 : 10 ∉ s)
    (hlen : s.length < INI_MAX_LINE - 1) :
    fgets_lines (fuel + 1) (s ++ 10 :: rest) = (s ++ [10]) :: fgets_lines fuel rest := by
  have hne : s ++ 10 :: rest ≠ [] := by simp
  simp only [fgets_lines, fgets, hne, if_false, fgets_read_line s _ rest h10 hlen]

theorem fgets_lines_nil (fuel : Nat) : fgets_lines fuel [] = [] := by
  cases fuel <;> rfl

theorem fgets_read_lower : ∀ (room : Nat) (s : List Nat),
    fgets_read room (s.map tolower) =
      ((fgets_read room s).1.map tolower, (fgets_read room s).2.map tolower) := by
  intro room
  induction room with
  | zero => intro s; rfl
  | succ room ih =>
    intro s
    cases s with
    | nil => rfl
    | cons c s =>
      have h10 := tolower_eq_iff (k := 10) (by omega) (by omega) c
      by_cases hc : c = 10
      · subst hc
        simp [fgets_read, tolower]
      · have hc' : tolower c ≠ 10 := fun e => hc (h10.mp e)
        simp [fgets_read, hc, hc', ih s]

theorem fgets_lines_lower : ∀ (fuel : Nat) (s : List Nat),
    fgets_lines fuel (s.map tolower) = (fgets_lines fuel s).map (List.map tolower) := by
  intro fuel
  induction fuel with
  | zero => intro s; rfl
  | succ fuel ih =>
    intro s
    cases s with
    | nil => rfl
    | cons c s =>
      have hr := fgets_read_lower (INI_MAX_LINE - 1) (c :: s)
      simp only [List.map_cons] at hr
      simp only [fgets_lines, fgets, if_false, hr, ih, List.cons_ne_nil, List.map_cons]

/-! ## Where the inline comment of a value is found -/

theorem isspace_ne_semicolon {c : Nat} (h : isspace c = true) : c ≠ 59 := by
  intro e
  subst e
  simp [isspace] at h

theorem find_loop_head (w : Bool) (U : List Nat) (hU : U.head? ≠ some 59) :
    find_chars_or_comment_loop none w U = find_chars_or_comment_loop none false U := by
  cases U with
  | nil => rfl
  | cons c U' =>
    have hc : c ≠ 59 := fun e => hU (by simp [e])
    simp [find_chars_or_comment_loop, INI_INLINE_COMMENT_PREFIXES, hc]

theorem find_loop_skip_ws (U : List Nat) (hU : U.head? ≠ some 59) :
    ∀ (ws : List Nat) (w : Bool), (∀ c ∈ ws, isspace c = true) →
      find_chars_or_comment_loop none w (ws ++ U) =
        ws.length + find_chars_or_comment_loop none false U := by
  intro ws
  induction ws with
  | nil => intro w _; simpa using find_loop_head w U hU
  | cons a ws ih =>
    intro w hws
    have ha : a ≠ 59 := isspace_ne_semicolon (hws a (List.mem_cons_self _ _))
    have := ih (isspace a) (fun c hc => hws c (List.mem_cons_of_mem _ hc))
    have key : find_chars_or_comment_loop none w (a :: (ws ++ U)) =
        find_chars_or_comment_loop none (isspace a) (ws ++ U) + 1 := by
      simp [find_chars_or_comment_loop, INI_INLINE_COMMENT_PREFIXES, ha]
    rw [List.cons_append, key, this, List.length_cons]
    omega

theorem lskip_rstrip_take (U : List Nat) (n : Nat)
    (hU : ∀ c, U.head? = some c → isspace c = false) :
    lskip (rstrip (U.take n)) = rstrip (U.take n) := by
  apply lskip_eq_self
  intro c hc
  apply hU c
  rw [rstrip_eq_rdropWhile] at hc
  have hp : (List.rdropWhile isspace (U.take n)) <+: U :=
    ( List.rdropWhile_prefix isspace _).trans ( List.take_prefix n U)
  obtain ⟨t, ht⟩ := hp
  rw [← ht]
  cases h : List.rdropWhile isspace (List.take n U) with
  | nil => rw [h] at hc; simp at hc
  | cons a l => rw [h] at hc; simpa using hc

/-- The value that the loop computes from the text `T` after the separator agrees
with the wording of the claim (cut `T` at the first `;` preceded by whitespace,
then trim) unless `T` starts with whitespace that is directly followed by `;`. -/
theorem pair_value_agrees (T : List Nat)
    (h : (∀ c, T.head? = some c → isspace c = false) ∨ (lskip T).head? ≠ some 59) :
    rstrip ((lskip T).take (find_chars_or_comment (lskip T) none)) =
      lskip (rstrip (T.take (find_chars_or_comment T none))) := by
  have hU : ∀ c, (lskip T).head? = some c → isspace c = false := by
    intro c hc
    unfold lskip at hc
    have := List.head?_dropWhile_not isspace T
    rw [hc] at this
    simpa using this
  rcases h with h | h
  · rw [lskip_eq_self h] at hU ⊢
    exact (lskip_rstrip_take T _ hU).symm
  · obtain ⟨ws, U, hT, hws, hl⟩ : ∃ ws U, T = ws ++ U ∧ (∀ c ∈ ws, isspace c = true) ∧
        lskip T = U :=
      ⟨T.takeWhile isspace, lskip T, (List.takeWhile_append_dropWhile _ _).symm,
        fun c hc => List.mem_takeWhile_imp hc, rfl⟩
    subst hT
    rw [hl] at h hU ⊢
    have hfind : find_chars_or_comment (ws ++ U) none =
        ws.length + find_chars_or_comment U none :=
      find_loop_skip_ws U h ws false hws
    rw [hfind, List.take_append]
    generalize hX : U.take (find_chars_or_comment U none) = X
    have hXs : lskip (rstrip X) = rstrip X := by
      rw [← hX]
      exact lskip_rstrip_take _ _ hU
    by_cases hr : rstrip X = []
    · have hall : ∀ c ∈ X, isspace c = true := by
        have : List.dropWhile isspace X.reverse = [] := by
          have := congrArg List.reverse hr
          simpa [rstrip] using this
        rw [List.dropWhile_eq_nil_iff] at this
        intro c hc
        exact this c (List.mem_reverse.mpr hc)
      have hall' : ∀ c ∈ ws ++ X, isspace c = true := by
        intro c hc
        rcases List.mem_append.mp hc with h1 | h1
        · exact hws c h1
        · exact hall c h1
      have : rstrip (ws ++ X) = [] := by
        have := rstrip_append_ws [] hall'
        simpa [rstrip] using this
      rw [this, hr]
      rfl
    · have : rstrip (ws ++ X) = ws ++ rstrip X := by
        unfold rstrip at hr ⊢
        rw [List.reverse_append, List.dropWhile_append]
        have hne : List.dropWhile isspace X.reverse ≠ [] := fun e => hr (by rw [e]; rfl)
        simp [hne]
      rw [this]
      unfold lskip at hXs ⊢
      rw [List.dropWhile_append]
      have : List.dropWhile isspace ws = [] := by
        rw [List.dropWhile_eq_nil_iff]
        exact hws
      simp [this, hXs]

/-! ## Numerals -/

theorem strtol_digits_run (base : Nat) (t : List Nat)
    (ht : ∀ c, t.head? = some c → is_digit base c = false) :
    ∀ (ds : List Nat) (acc n : Nat), (∀ c ∈ ds, is_digit base c = true) →
      strtol_digits base (ds ++ t) acc n =
        (ds.foldl (fun a c => a * base + (digit_value c).getD 0) acc, n + ds.length) := by
  intro ds
  induction ds with
  | nil =>
    intro acc n _
    cases t with
    | nil => rfl
    | cons c t' =>
      have h := ht c rfl
      unfold is_digit at h
      simp only [List.nil_append, strtol_digits, List.foldl_nil, List.length_nil, Nat.add_zero]
      cases hd : digit_value c with
      | none => rfl
      | some d =>
        rw [hd] at h
        have : ¬ d < base := by simpa using h
        simp [this]
  | cons a ds ih =>
    intro acc n hds
    have ha := hds a (List.mem_cons_self _ _)
    unfold is_digit at ha
    cases hd : digit_value a with
    | none => rw [hd] at ha; cases ha
    | some d =>
      rw [hd] at ha
      have hlt : d < base := by simpa using ha
      simp only [List.cons_append, strtol_digits, hd, hlt, if_true, List.foldl_cons,
        Option.getD_some, List.length_cons]
      have h2 := ih (acc * base + d) (n + 1) (fun c hc => hds c (List.mem_cons_of_mem _ hc))
      change strtol_digits base (ds ++ t) (acc * base + d) (n + 1) = _
      rw [h2]
      congr 1
      omega

theorem is_digit_ten (c : Nat) : is_digit 10 c = true ↔ 48 ≤ c ∧ c ≤ 57 := by
  unfold is_digit digit_value
  split_ifs with h1 h2 h3
  · simp only [decide_eq_true_eq]; omega
  · simp only [decide_eq_true_eq]; omega
  · simp only [decide_eq_true_eq]; omega
  · simp only [Bool.false_eq_true, false_iff]; omega

theorem is_digit_eight (c : Nat) : is_digit 8 c = true ↔ 48 ≤ c ∧ c ≤ 55 := by
  unfold is_digit digit_value
  split_ifs with h1 h2 h3
  · simp only [decide_eq_true_eq]; omega
  · simp only [decide_eq_true_eq]; omega
  · simp only [decide_eq_true_eq]; omega
  · simp only [Bool.false_eq_true, false_iff]; omega

theorem isspace_of_digit {base c : Nat} (h : is_digit base c = true) : isspace c = false := by
  unfold is_digit digit_value at h
  have hc : 48 ≤ c := by
    by_contra hlt
    have h1 : ¬ (48 ≤ c ∧ c ≤ 57) := by omega
    have h2 : ¬ (97 ≤ c ∧ c ≤ 122) := by omega
    have h3 : ¬ (65 ≤ c ∧ c ≤ 90) := by omega
    simp [h1, h2, h3] at h
  simp only [isspace, Bool.or_eq_false_iff, Bool.and_eq_false_iff, beq_eq_false_iff_ne,
    decide_eq_false_iff_not]
  omega

theorem clamp_of_le {x : Nat} (h : (x : Int) ≤ LONG_MAX) :
    max LONG_MIN (min LONG_MAX (x : Int)) = x := by
  have h0 : LONG_MIN ≤ (x : Int) := by
    have : LONG_MIN ≤ 0 := by decide
    omega
  rw [min_eq_right h, max_eq_right h0]

theorem strtol_decimal (ds t : List Nat) (hne : ds ≠ [])
    (hds : ∀ c ∈ ds, 48 ≤ c ∧ c ≤ 57) (h0 : ds.head? ≠ some 48)
    (ht : ∀ c, t.head? = some c → ¬ (48 ≤ c ∧ c ≤ 57)) :
    strtol (ds ++ t) 0 =
      (max LONG_MIN (min LONG_MAX ((digits_value 10 ds : Nat) : Int)), ds.length) := by
  cases ds with
  | nil => exact absurd rfl hne
  | cons a ds' =>
    have ha := hds a (List.mem_cons_self _ _)
    have ha0 : a ≠ 48 := fun e => h0 (by simp [e])
    have hsp : isspace a = false := isspace_of_digit ((is_digit_ten a).mpr ha)
    have hl : lskip (a :: ds' ++ t) = a :: ds' ++ t := by
      apply lskip_eq_self
      intro c hc
      have : c = a := by simpa using hc.symm
      exact this ▸ hsp
    have hrun := strtol_digits_run 10 t
      (fun c hc => by
        have := ht c hc
        cases h : is_digit 10 c with
        | false => rfl
        | true => exact absurd ((is_digit_ten c).mp h) this)
      (a :: ds') 0 0 (fun c hc => (is_digit_ten c).mpr (hds c hc))
    have h45 : a ≠ 45 := by omega
    have h43 : a ≠ 43 := by omega
    unfold strtol
    simp only [hl]
    simp only [List.cons_append, List.head?_cons, Option.some.injEq, h45, h43, ha0,
      decide_False, Bool.or_self, Bool.false_eq_true, if_false, beq_self_eq_true,
      Bool.true_and, Bool.and_false, Bool.false_and, if_true]
    simp only [List.cons_append] at hrun
    simp [hrun, digits_value, ha0]

theorem strtol_hex (x : Nat) (h t : List Nat) (hx : x = 120 ∨ x = 88) (hne : h ≠ [])
    (hh : ∀ c ∈ h, is_digit 16 c = true)
    (ht : ∀ c, t.head? = some c → is_digit 16 c = false) :
    strtol (48 :: x :: h ++ t) 0 =
      (max LONG_MIN (min LONG_MAX ((digits_value 16 h : Nat) : Int)), 2 + h.length) := by
  cases h with
  | nil => exact absurd rfl hne
  | cons a h' =>
    have ha := hh a (List.mem_cons_self _ _)
    have hl : lskip (48 :: x :: (a :: h') ++ t) = 48 :: x :: (a :: h') ++ t := by
      apply lskip_eq_self
      intro c hc
      have : c = 48 := by simpa using hc.symm
      subst this
      decide
    have hrun := strtol_digits_run 16 t ht (a :: h') 0 0 hh
    have hd : ∃ d, digit_value a = some d ∧ d < 16 := by
      unfold is_digit at ha
      cases hd : digit_value a with
      | none => rw [hd] at ha; cases ha
      | some d => rw [hd] at ha; exact ⟨d, rfl, by simpa using ha⟩
    obtain ⟨d, hd1, hd2⟩ := hd
    unfold strtol
    simp only [hl]
    have hx' : (x == 120 || x == 88) = true := by
      rcases hx with e | e <;> simp [e]
    simp only [List.cons_append] at hrun
    simp [hx', hd1, hd2, hrun, digits_value]

theorem strtol_octal (o t : List Nat) (ho : ∀ c ∈ o, 48 ≤ c ∧ c ≤ 55)
    (ht : ∀ c, t.head? = some c → ¬ (48 ≤ c ∧ c ≤ 55) ∧ c ≠ 120 ∧ c ≠ 88) :
    strtol (48 :: o ++ t) 0 =
      (max LONG_MIN (min LONG_MAX ((digits_value 8 (48 :: o) : Nat) : Int)), 1 + o.length) := by
  have hl : lskip (48 :: o ++ t) = 48 :: o ++ t := by
    apply lskip_eq_self
    intro c hc
    have : c = 48 := by simpa using hc.symm
    subst this
    decide
  have hrun := strtol_digits_run 8 t
    (fun c hc => by
      have := (ht c hc).1
      cases h : is_digit 8 c with
      | false => rfl
      | true => exact absurd ((is_digit_eight c).mp h) this)
    (48 :: o) 0 0 (fun c hc => by
      rcases List.mem_cons.mp hc with e | e
      · subst e; decide
      · exact (is_digit_eight c).mpr (ho c e))
  have hnox : ¬ ((o ++ t)[0]? = some 120 ∨ (o ++ t)[0]? = some 88) := by
    cases o with
    | nil =>
      cases t with
      | nil => simp
      | cons c t' =>
        have := ht c rfl
        simp [this.2.1, this.2.2]
    | cons a o' =>
      have := ho a (List.mem_cons_self _ _)
      have h1 : a ≠ 120 := by omega
      have h2 : a ≠ 88 := by omega
      simp [h1, h2]
  unfold strtol
  simp only [hl]
  simp only [List.cons_append] at hrun
  simp [hnox, hrun, digits_value]
  omega

theorem cstr_append_left {ds : List Nat} (t : List Nat) (h : 0 ∉ ds) :
    cstr (ds ++ t) = ds ++ cstr t := by
  unfold cstr
  induction ds with
  | nil => rfl
  | cons a ds ih =>
    have ha : a ≠ 0 := fun e => h (e ▸ List.mem_cons_self _ _)
    have hds : 0 ∉ ds := fun e => h (List.mem_cons_of_mem _ e)
    simp [List.takeWhile_cons, ha, ih hds]

theorem head_cstr {t : List Nat} {c : Nat} (h : (cstr t).head? = some c) : t.head? = some c := by
  unfold cstr at h
  cases t with
  | nil => simp at h
  | cons a t' =>
    by_cases ha : a = 0
    · simp [List.takeWhile_cons, ha] at h
    · simp only [List.takeWhile_cons, bne_iff_ne, ne_eq, ha, not_false_eq_true, decide_True,
        if_true, List.head?_cons] at h
      simpa using h

theorem digit_ge {base c : Nat} (h : is_digit base c = true) : 48 ≤ c := by
  unfold is_digit digit_value at h
  by_contra hlt
  have h1 : ¬ (48 ≤ c ∧ c ≤ 57) := by omega
  have h2 : ¬ (97 ≤ c ∧ c ≤ 122) := by omega
  have h3 : ¬ (65 ≤ c ∧ c ≤ 90) := by omega
  simp [h1, h2, h3] at h

theorem get_long_eq (r : INIReader) (s n : List Nat) (d : Int) :
    r.get_long s n d =
      if (strtol (cstr (r.get_string s n (str ""))) 0).2 = 0 then d
      else (strtol (cstr (r.get_string s n (str ""))) 0).1 := by
  unfold INIReader.get_long
  simp only []
  split_ifs with h1 h2 h2
  · omega
  · rfl
  · rfl
  · omega

/-! ## Arrays -/

theorem getline_found (delim : Nat) : ∀ (seg rest : List Nat), delim ∉ seg →
    getline delim (seg ++ delim :: rest) = (seg, some rest) := by
  intro seg
  induction seg with
  | nil => intro rest _; simp [getline]
  | cons a seg ih =>
    intro rest h
    have ha : a ≠ delim := fun e => h (e ▸ List.mem_cons_self _ _)
    have hs : delim ∉ seg := fun e => h (List.mem_cons_of_mem _ e)
    simp [getline, ha, ih rest hs]

theorem getline_end (delim : Nat) : ∀ (seg : List Nat), delim ∉ seg →
    getline delim seg = (seg, none) := by
  intro seg
  induction seg with
  | nil => intro _; rfl
  | cons a seg ih =>
    intro h
    have ha : a ≠ delim := fun e => h (e ▸ List.mem_cons_self _ _)
    have hs : delim ∉ seg := fun e => h (List.mem_cons_of_mem _ e)
    simp [getline, ha, ih hs]

theorem lskip_append_ws {ws : List Nat} (s : List Nat) (h : ∀ c ∈ ws, isspace c = true) :
    lskip (ws ++ s) = lskip s := by
  unfold lskip
  have : List.dropWhile isspace ws = [] := by
    rw [List.dropWhile_eq_nil_iff]
    exact h
  rw [List.dropWhile_append, this]
  simp

theorem trim_body (ws1 body ws2 : List Nat) (h1 : ∀ c ∈ ws1, isspace c = true)
    (h2 : ∀ c ∈ ws2, isspace c = true)
    (hh : ∀ c, body.head? = some c → isspace c = false)
    (hl : ∀ c, body.getLast? = some c → isspace c = false) (hne : body ≠ []) :
    trim (ws1 ++ body ++ ws2) = body := by
  unfold trim
  rw [List.append_assoc, lskip_append_ws _ h1]
  have : lskip (body ++ ws2) = body ++ ws2 := by
    apply lskip_eq_self
    intro c hc
    cases body with
    | nil => exact absurd rfl hne
    | cons a b => exact hh c (by simpa using hc)
  rw [this, rstrip_append_ws _ h2, rstrip_eq_self hl]

theorem clamp_of_range {z : Int} (h : LONG_MIN ≤ z ∧ z ≤ LONG_MAX) :
    max LONG_MIN (min LONG_MAX z) = z := by
  rw [min_eq_right h.2, max_eq_right h.1]

theorem decimal_run (ds : List Nat) (hds : ∀ c ∈ ds, 48 ≤ c ∧ c ≤ 57) :
    strtol_digits 10 ds 0 0 = (digits_value 10 ds, ds.length) := by
  have := strtol_digits_run 10 [] (fun c hc => by simp at hc) ds 0 0
    (fun c hc => (is_digit_ten c).mpr (hds c hc))
  simpa [digits_value] using this

theorem extract_long_body (sgn ds : List Nat) (old : Int)
    (hs : sgn = [] ∨ sgn = [43] ∨ sgn = [45]) (hne : ds ≠ [])
    (hds : ∀ c ∈ ds, 48 ≤ c ∧ c ≤ 57) :
    extract_long (sgn ++ ds) old =
      max LONG_MIN (min LONG_MAX
        (if sgn = [45] then -((digits_value 10 ds : Nat) : Int)
         else ((digits_value 10 ds : Nat) : Int))) := by
  have hlen : ds.length ≠ 0 := fun e => hne (List.length_eq_zero.mp e)
  have hrun := decimal_run ds hds
  cases ds with
  | nil => exact absurd rfl hne
  | cons a ds' =>
    have ha := hds a (List.mem_cons_self _ _)
    have hsp : isspace a = false := isspace_of_digit ((is_digit_ten a).mpr ha)
    have h45 : a ≠ 45 := by omega
    have h43 : a ≠ 43 := by omega
    rcases hs with e | e | e
    · subst e
      have hl : lskip ([] ++ a :: ds') = a :: ds' := by
        apply lskip_eq_self
        intro c hc
        have : c = a := by simpa using hc.symm
        exact this ▸ hsp
      unfold extract_long
      simp only [hl]
      simp [h45, h43, hrun]
    · subst e
      have hl : lskip ([43] ++ a :: ds') = 43 :: a :: ds' := by
        apply lskip_eq_self
        intro c hc
        have : c = 43 := by simpa using hc.symm
        subst this
        decide
      unfold extract_long
      simp only [hl]
      simp [hrun]
    · subst e
      have hl : lskip ([45] ++ a :: ds') = 45 :: a :: ds' := by
        apply lskip_eq_self
        intro c hc
        have : c = 45 := by simpa using hc.symm
        subst this
        decide
      unfold extract_long
      simp only [hl]
      simp [hrun]

theorem int_segment_extract {seg : List Nat} {z : Int} (h : int_segment seg z)
    (hr : LONG_MIN ≤ z ∧ z ≤ LONG_MAX) (old : Int) :
    extract_long (trim seg) old = z ∧ 44 ∉ seg := by
  obtain ⟨ws1, sgn, ds, ws2, rfl, h1, h2, hs, hne, hds, hz⟩ := h
  have hdsp : ∀ c ∈ ds, isspace c = false := fun c hc =>
    isspace_of_digit ((is_digit_ten c).mpr (hds c hc))
  have hsgn : ∀ c ∈ sgn, c = 43 ∨ c = 45 := by
    intro c hc
    rcases hs with e | e | e <;> subst e <;> simp at hc <;> simp [hc]
  constructor
  · have hbody : sgn ++ ds ≠ [] := by simp [hne]
    have hh : ∀ c, (sgn ++ ds).head? = some c → isspace c = false := by
      intro c hc
      have hm : c ∈ sgn ++ ds := List.mem_of_mem_head? hc
      rcases List.mem_append.mp hm with hm | hm
      · rcases hsgn c hm with e | e <;> subst e <;> decide
      · exact hdsp c hm
    have hl : ∀ c, (sgn ++ ds).getLast? = some c → isspace c = false := by
      intro c hc
      have hm : c ∈ sgn ++ ds := List.mem_of_mem_getLast? hc
      rcases List.mem_append.mp hm with hm | hm
      · rcases hsgn c hm with e | e <;> subst e <;> decide
      · exact hdsp c hm
    have e : ws1 ++ sgn ++ ds ++ ws2 = ws1 ++ (sgn ++ ds) ++ ws2 := by simp
    rw [e, trim_body ws1 (sgn ++ ds) ws2 h1 h2 hh hl hbody, extract_long_body sgn ds old hs hne hds,
      ← hz]
    exact clamp_of_range hr
  · intro hm
    simp only [List.mem_append] at hm
    rcases hm with ((hm | hm) | hm) | hm
    · have := h1 44 hm; simp [isspace] at this
    · rcases hsgn 44 hm with e | e <;> omega
    · have := hds 44 hm; omega
    · have := h2 44 hm; simp [isspace] at this

theorem length_le_comma_joined : ∀ segs : List (List Nat),
    segs.length ≤ (comma_joined segs).length + 1
  | [] => by simp
  | [seg] => by simp
  | seg :: seg2 :: rest => by
    have := length_le_comma_joined (seg2 :: rest)
    simp only [comma_joined, List.length_cons, List.length_append] at this ⊢
    omega

theorem loop_comma_joined : ∀ (segs : List (List Nat)) (zs : List Int),
    List.Forall₂ int_segment segs zs → (∀ z ∈ zs, LONG_MIN ≤ z ∧ z ≤ LONG_MAX) → segs ≠ [] →
    ∀ (fuel : Nat) (v : Int), segs.length ≤ fuel →
      get_array_loop fuel (comma_joined segs) v = zs
  | [], _, _, _, hne => absurd rfl hne
  | [seg], zs, h, hr, _ => by
    intro fuel v hf
    cases h with
    | cons hz hrest =>
      cases hrest
      rename_i z
      obtain ⟨he, hc⟩ := int_segment_extract hz (hr z (List.mem_cons_self _ _)) v
      cases fuel with
      | zero => simp at hf
      | succ fuel => simp [get_array_loop, comma_joined, getline_end 44 seg hc, he]
  | seg :: seg2 :: rest, zs, h, hr, _ => by
    intro fuel v hf
    cases h with
    | cons hz hrest =>
      rename_i z zs'
      obtain ⟨he, hc⟩ := int_segment_extract hz (hr z (List.mem_cons_self _ _)) v
      cases fuel with
      | zero => simp at hf
      | succ fuel =>
        have ih := loop_comma_joined (seg2 :: rest) zs' hrest
          (fun z' hz' => hr z' (List.mem_cons_of_mem _ hz')) (by simp) fuel z
          (by simpa using hf)
        simp only [get_array_loop, comma_joined, getline_found 44 seg _ hc, he, ih]

theorem getline_count (delim : Nat) : ∀ ss : List Nat,
    match (getline delim ss).2 with
    | none => ss.count delim = 0
    | some rest => ss.count delim = rest.count delim + 1 ∧ rest.length < ss.length := by
  intro ss
  induction ss with
  | nil => simp [getline]
  | cons a ss ih =>
    by_cases ha : a = delim
    · subst ha
      simp [getline]
    · simp only [getline, ha, if_false]
      cases h : (getline delim ss).2 with
      | none =>
        rw [h] at ih
        simpa [List.count_cons, ha] using ih
      | some rest =>
        rw [h] at ih
        simp only [List.count_cons, ha, beq_iff_eq, if_false, List.length_cons]
        exact ⟨by simpa using ih.1, by omega⟩

theorem loop_length : ∀ (fuel : Nat) (ss : List Nat) (v : Int), ss.length < fuel →
    (get_array_loop fuel ss v).length = ss.count 44 + 1 := by
  intro fuel
  induction fuel with
  | zero => intro ss v h; simp at h
  | succ fuel ih =>
    intro ss v hf
    have hc := getline_count 44 ss
    simp only [get_array_loop, List.length_cons]
    cases h : (getline 44 ss).2 with
    | none =>
      rw [h] at hc
      simp [hc]
    | some rest =>
      rw [h] at hc
      simp only []
      rw [ih rest _ (by omega), hc.1]

/-! ## The branch as a function of the working string -/

theorem classify_eq_start (lineno : Nat) (prev_name buf : List Nat) :
    classify lineno prev_name buf =
      classify_start prev_name (line_start lineno buf) (line_indented lineno buf) := rfl

theorem classify_start_not_cont {prev_name : List Nat} {indented : Bool} (start : List Nat)
    (h : ¬ (prev_name ≠ [] ∧ indented = true)) :
    classify_start prev_name start indented = classify_start [] start indented := by
  have h1 : ¬ (prev_name ≠ [] ∧ start ≠ [] ∧ indented = true) := fun h' => h ⟨h'.1, h'.2.2⟩
  have h2 : ¬ (([] : List Nat) ≠ [] ∧ start ≠ [] ∧ indented = true) := fun h' => h'.1 rfl
  unfold classify_start
  rw [if_neg h1, if_neg h2]

theorem find_loop_hit (cs t : List Nat) :
    ∀ (s : List Nat) (w : Bool), (∀ c ∈ s, c ∉ cs) →
      ((w = true ∧ s.head? = some 59) ∨ has_ws_semicolon s = true) →
      ∃ i, i < s.length ∧ find_chars_or_comment_loop (some cs) w (s ++ t) = i ∧
        (s ++ t).get? i = some 59 := by
  intro s
  induction s with
  | nil =>
    intro w _ h
    rcases h with ⟨_, h⟩ | h
    · simp at h
    · simp [has_ws_semicolon] at h
  | cons a s ih =>
    intro w hfree h
    have ha : a ∉ cs := hfree a (List.mem_cons_self _ _)
    by_cases hstop : w = true ∧ a = 59
    · refine ⟨0, by simp, ?_, by simp [hstop.2]⟩
      simp [find_chars_or_comment_loop, INI_INLINE_COMMENT_PREFIXES, hstop.1, hstop.2]
    · have hnext : (isspace a = true ∧ s.head? = some 59) ∨ has_ws_semicolon s = true := by
        rcases h with ⟨hw, hh⟩ | h
        · exact absurd ⟨hw, by simpa using hh⟩ hstop
        · cases s with
          | nil => simp [has_ws_semicolon] at h
          | cons b s' =>
            simp only [has_ws_semicolon, Bool.or_eq_true, Bool.and_eq_true, beq_iff_eq] at h
            rcases h with ⟨h1, h2⟩ | h
            · exact Or.inl ⟨h1, by simp [h2]⟩
            · exact Or.inr h
      obtain ⟨i, hi, hf, hg⟩ := ih (isspace a) (fun c hc => hfree c (List.mem_cons_of_mem _ hc))
        hnext
      refine ⟨i + 1, by simpa using hi, ?_, by simpa using hg⟩
      have hcond : (w && decide (a ∈ INI_INLINE_COMMENT_PREFIXES)) = false := by
        cases w with
        | false => rfl
        | true =>
          have : a ≠ 59 := fun e => hstop ⟨rfl, e⟩
          simp [INI_INLINE_COMMENT_PREFIXES, this]
      simp [find_chars_or_comment_loop, ha, hcond, hf]

/-! ## The steps of the loop -/

theorem steps_kind (lines : List (List Nat)) :
    ∀ (lineno : Nat) (sec prev_name : List Nat) (k : Nat) (e : List Nat × List Nat × LineKind),
      (line_steps lines lineno sec prev_name)[k]? = some e →
      ∃ buf, lines[k]? = some buf ∧ e.2.2 = classify (lineno + k + 1) e.2.1 buf := by
  induction lines with
  | nil => intro _ _ _ k e h; simp [line_steps] at h
  | cons b lines ih =>
    intro lineno sec prev_name k e h
    cases k with
    | zero =>
      simp only [line_steps, List.getElem?_cons_zero, Option.some.injEq] at h
      subst h
      exact ⟨b, by simp, rfl⟩
    | succ k =>
      simp only [line_steps, List.getElem?_cons_succ] at h
      obtain ⟨buf, h1, h2⟩ := ih _ _ _ k e h
      refine ⟨buf, by simpa using h1, ?_⟩
      rw [h2]
      congr 1
      omega

theorem scan_calls_eq_steps (lines : List (List Nat)) :
    ∀ (lineno : Nat) (sec prev_name : List Nat),
      scan_calls lines sec prev_name lineno =
        (line_steps lines lineno sec prev_name).filterMap (fun e => e.2.2.call e.1 e.2.1) := by
  induction lines with
  | nil => intro _ _ _; rfl
  | cons b lines ih =>
    intro lineno sec prev_name
    simp only [scan_calls, line_steps, List.filterMap_cons, ih]
    cases (classify (lineno + 1) prev_name b).call sec prev_name <;> rfl

theorem continuation_prev_ne {lineno : Nat} {prev_name buf value : List Nat}
    (h : classify lineno prev_name buf = .continuation value) : prev_name ≠ [] := by
  rw [classify_eq_start] at h
  unfold classify_start at h
  intro hp
  subst hp
  split_ifs at h
  simp_all

theorem continuation_value {lineno : Nat} {prev_name buf value : List Nat}
    (h : classify lineno prev_name buf = .continuation value) :
    value = rstrip ((line_start lineno buf).take
      (find_chars_or_comment (line_start lineno buf) none)) := by
  rw [classify_eq_start] at h
  unfold classify_start at h
  split_ifs at h
  · simpa using h.symm

/-- The step of a continuation line follows a name=value line with the same
section, from which its name was copied, with no other name=value line and no
section header in between; unless it has the section and previous name with
which the scan started and no such line precedes it. -/
theorem continuation_origin (lines : List (List Nat)) :
    ∀ (lineno : Nat) (sec0 prev0 : List Nat) (k : Nat) (sec prev_name value : List Nat),
      (line_steps lines lineno sec0 prev0)[k]? = some (sec, prev_name, .continuation value) →
      (sec = sec0 ∧ prev_name = prev0 ∧
        ∀ i e, i < k → (line_steps lines lineno sec0 prev0)[i]? = some e →
          e.2.2.assigns_name = false) ∨
      ∃ j name v0 prev_j, j < k ∧
        (line_steps lines lineno sec0 prev0)[j]? = some (sec, prev_j, .pair name v0) ∧
        prev_name = strncpy0 name MAX_NAME ∧
        ∀ i e, j < i → i < k → (line_steps lines lineno sec0 prev0)[i]? = some e →
          e.2.2.assigns_name = false := by
  induction lines with
  | nil => intro _ _ _ k _ _ _ h; simp [line_steps] at h
  | cons b lines ih =>
    intro lineno sec0 prev0 k sec prev_name value h
    cases k with
    | zero =>
      simp only [line_steps, List.getElem?_cons_zero, Option.some.injEq, Prod.mk.injEq] at h
      exact Or.inl ⟨h.1.symm, h.2.1.symm, fun i e hi _ => absurd hi (Nat.not_lt_zero i)⟩
    | succ k =>
      simp only [line_steps, List.getElem?_cons_succ] at h
      have hfirst : ∀ (hno : (classify (lineno + 1) prev0 b).assigns_name = false),
          (∀ i e, i < k → (line_steps lines (lineno + 1)
              ((classify (lineno + 1) prev0 b).next_section sec0)
              ((classify (lineno + 1) prev0 b).next_prev_name prev0))[i]? = some e →
            e.2.2.assigns_name = false) →
          ∀ i e, i < k + 1 → (line_steps (b :: lines) lineno sec0 prev0)[i]? = some e →
            e.2.2.assigns_name = false := by
        intro hno hall i e hi he
        cases i with
        | zero =>
          simp only [line_steps, List.getElem?_cons_zero, Option.some.injEq] at he
          subst he
          exact hno
        | succ i =>
          simp only [line_steps, List.getElem?_cons_succ] at he
          exact hall i e (Nat.lt_of_succ_lt_succ hi) he
      rcases ih _ _ _ k sec prev_name value h with
        ⟨hs, hp, hall⟩ | ⟨j, name, v0, prev_j, hj, hjs, hp, hall⟩
      · cases hc : classify (lineno + 1) prev0 b with
        | ignored =>
          rw [hc] at hs hp
          exact Or.inl ⟨hs, hp, hfirst (by rw [hc]; rfl) hall⟩
        | continuation v =>
          rw [hc] at hs hp
          exact Or.inl ⟨hs, hp, hfirst (by rw [hc]; rfl) hall⟩
        | malformed =>
          rw [hc] at hs hp
          exact Or.inl ⟨hs, hp, hfirst (by rw [hc]; rfl) hall⟩
        | header s =>
          rw [hc] at hp
          obtain ⟨buf, _, hkind⟩ := steps_kind _ _ _ _ k _ h
          exact absurd hp (continuation_prev_ne hkind.symm)
        | pair name v0 =>
          rw [hc] at hs hp
          refine Or.inr ⟨0, name, v0, prev0, Nat.succ_pos k, ?_, hp, ?_⟩
          · simp only [line_steps, List.getElem?_cons_zero, hc]
            rw [hs]
            rfl
          · intro i e h0 hi he
            cases i with
            | zero => exact absurd h0 (Nat.lt_irrefl 0)
            | succ i =>
              simp only [line_steps, List.getElem?_cons_succ] at he
              exact hall i e (Nat.lt_of_succ_lt_succ hi) he
      · refine Or.inr ⟨j + 1, name, v0, prev_j, Nat.succ_lt_succ hj, ?_, hp, ?_⟩
        · simpa only [line_steps, List.getElem?_cons_succ] using hjs
        · intro i e hji hi he
          cases i with
          | zero => exact absurd hji (Nat.not_lt_zero _)
          | succ i =>
            simp only [line_steps, List.getElem?_cons_succ] at he
            exact hall i e (Nat.lt_of_succ_lt_succ hji) (Nat.lt_of_succ_lt_succ hi) he

theorem line_steps_take (lines : List (List Nat)) :
    ∀ (n lineno : Nat) (sec prev_name : List Nat),
      line_steps (lines.take n) lineno sec prev_name =
        (line_steps lines lineno sec prev_name).take n := by
  induction lines with
  | nil => intro n _ _ _; simp [line_steps]
  | cons b lines ih =>
    intro n lineno sec prev_name
    cases n with
    | zero => simp [line_steps]
    | succ n => simp only [List.take_succ_cons, line_steps, ih]

theorem ini_calls_take_succ (lines : List (List Nat)) (k : Nat)
    (e : List Nat × List Nat × LineKind) (h : (line_steps lines 0 [] [])[k]? = some e) :
    ini_calls (lines.take (k + 1)) =
      ini_calls (lines.take k) ++ (e.2.2.call e.1 e.2.1).toList := by
  rw [ini_calls_eq_scan, ini_calls_eq_scan, scan_calls_eq_steps, scan_calls_eq_steps,
    line_steps_take, line_steps_take, List.take_succ, h, List.filterMap_append]
  congr 1

theorem steps_state {υ : Type} (handler : Handler υ) (lines : List (List Nat)) :
    ∀ (st : ParseState υ) (k : Nat) (e : List Nat × List Nat × LineKind),
      (line_steps lines st.lineno st.«section» st.prev_name)[k]? = some e →
      (ini_parse_loop handler st (lines.take k)).«section» = e.1 ∧
      (ini_parse_loop handler st (lines.take k)).prev_name = e.2.1 ∧
      (ini_parse_loop handler st (lines.take k)).lineno = st.lineno + k := by
  induction lines with
  | nil => intro _ k _ h; simp [line_steps] at h
  | cons b lines ih =>
    intro st k e h
    cases k with
    | zero =>
      simp only [line_steps, List.getElem?_cons_zero, Option.some.injEq] at h
      subst h
      simp [ini_parse_loop_nil]
    | succ k =>
      simp only [line_steps, List.getElem?_cons_succ] at h
      have := ih (st.after handler (classify (st.lineno + 1) st.prev_name b)) k e
      rw [after_lineno, after_prev_name, after_section] at this
      have h3 := this h
      simp only [List.take_succ_cons, ini_parse_loop_cons]
      refine ⟨h3.1, h3.2.1, ?_⟩
      rw [h3.2.2]
      omega

theorem header_length {lineno : Nat} {prev_name buf sec : List Nat}
    (h : classify lineno prev_name buf = .header sec) : sec.length ≤ MAX_SECTION - 1 := by
  rw [classify_eq_start] at h
  unfold classify_start at h
  split_ifs at h
  simp only [LineKind.header.injEq] at h
  subst h
  simp only [strncpy0, List.length_take]
  exact Nat.min_le_left _ _

theorem steps_bound (lines : List (List Nat)) :
    ∀ (lineno : Nat) (sec prev_name : List Nat) (k : Nat) (e : List Nat × List Nat × LineKind),
      sec.length ≤ MAX_SECTION - 1 → prev_name.length ≤ MAX_NAME - 1 →
      (line_steps lines lineno sec prev_name)[k]? = some e →
      e.1.length ≤ MAX_SECTION - 1 ∧ e.2.1.length ≤ MAX_NAME - 1 := by
  induction lines with
  | nil => intro _ _ _ k _ _ _ h; simp [line_steps] at h
  | cons b lines ih =>
    intro lineno sec prev_name k e hs hp h
    cases k with
    | zero =>
      simp only [line_steps, List.getElem?_cons_zero, Option.some.injEq] at h
      subst h
      exact ⟨hs, hp⟩
    | succ k =>
      simp only [line_steps, List.getElem?_cons_succ] at h
      refine ih _ _ _ k e ?_ ?_ h
      · cases hc : classify (lineno + 1) prev_name b with
        | header s => exact header_length hc
        | ignored => exact hs
        | continuation v => exact hs
        | pair a v => exact hs
        | malformed => exact hs
      · cases hc : classify (lineno + 1) prev_name b with
        | header s => exact Nat.zero_le _
        | ignored => exact hp
        | continuation v => exact hp
        | pair a v =>
          simp only [LineKind.next_prev_name, strncpy0, List.length_take]
          exact Nat.min_le_left _ _
        | malformed => exact hp

theorem store_value_at (m : List Nat → Option (List Nat)) (key value : List Nat) :
    store_value m (key, value) key =
      some (match m key with
            | some old => if old = [] then value else old ++ str "\n" ++ value
            | none => value) := by
  simp only [store_value, Function.update_same]
  cases h : m key with
  | none => simp
  | some old =>
    cases old with
    | nil => simp
    | cons a t => simp

/-! ## Line numbers, and lines that are skipped -/

theorem line_start_later {lineno : Nat} (h : lineno ≠ 1) (buf : List Nat) :
    line_start lineno buf = lskip (rstrip (cstr buf)) := by
  simp [line_start, h]

theorem line_indented_later {lineno : Nat} (h : lineno ≠ 1) (buf : List Nat) :
    line_indented lineno buf =
      decide ((lskip (rstrip (cstr buf))).length < (rstrip (cstr buf)).length) := by
  simp [line_indented, line_start, h]

theorem classify_later {n m : Nat} (hn : n ≠ 1) (hm : m ≠ 1) (prev_name buf : List Nat) :
    classify n prev_name buf = classify m prev_name buf := by
  rw [classify_eq_start, classify_eq_start, line_start_later hn, line_start_later hm,
    line_indented_later hn, line_indented_later hm]

theorem scan_shift (lines : List (List Nat)) :
    ∀ (sec prev_name : List Nat) (n m : Nat), 1 ≤ n → 1 ≤ m →
      scan_calls lines sec prev_name n = scan_calls lines sec prev_name m := by
  induction lines with
  | nil => intro _ _ _ _ _ _; rfl
  | cons b lines ih =>
    intro sec prev_name n m hn hm
    have hc : classify (n + 1) prev_name b = classify (m + 1) prev_name b :=
      classify_later (by omega) (by omega) prev_name b
    simp only [scan_calls, hc]
    rw [ih _ _ (n + 1) (m + 1) (by omega) (by omega)]

theorem classify_skipped {lineno : Nat} (hline : lineno ≠ 1) (prev_name : List Nat)
    {l : List Nat}
    (hl : lskip (rstrip (cstr l)) = [] ∨ (lskip (rstrip (cstr l))).head? = some 59 ∨
      (lskip (rstrip (cstr l))).head? = some 35) :
    classify lineno prev_name l = .ignored := by
  rw [classify_eq_start, line_start_later hline]
  unfold classify_start
  rcases hl with h | h | h
  · simp [h]
  · simp [h]
  · simp [h]

theorem scan_delete (l : List Nat) (post : List (List Nat))
    (hl : lskip (rstrip (cstr l)) = [] ∨ (lskip (rstrip (cstr l))).head? = some 59 ∨
      (lskip (rstrip (cstr l))).head? = some 35) (pre : List (List Nat)) :
    ∀ (sec prev_name : List Nat) (n : Nat), pre ≠ [] ∨ 1 ≤ n →
      scan_calls (pre ++ l :: post) sec prev_name n = scan_calls (pre ++ post) sec prev_name n := by
  induction pre with
  | nil =>
    intro sec prev_name n h
    have hn : 1 ≤ n := by
      rcases h with h | h
      · exact absurd rfl h
      · exact h
    simp only [List.nil_append, scan_calls, classify_skipped (by omega : n + 1 ≠ 1) prev_name hl,
      LineKind.call, LineKind.next_section, LineKind.next_prev_name, Option.toList,
      List.nil_append]
    exact scan_shift post sec prev_name (n + 1) n (by omega) hn
  | cons b pre ih =>
    intro sec prev_name n _
    rw [List.cons_append, List.cons_append, scan_calls, scan_calls,
      ih _ _ (n + 1) (Or.inr (by omega))]

/-! ## The byte-order mark -/

theorem classify_bom (l0 : List Nat) (h : (cstr l0).take 3 ≠ [0xEF, 0xBB, 0xBF]) :
    classify 1 [] ([0xEF, 0xBB, 0xBF] ++ l0) = classify 1 [] l0 := by
  have hc : cstr (0xEF :: 0xBB :: 0xBF :: l0) = 0xEF :: 0xBB :: 0xBF :: cstr l0 :=
    @cstr_append_left [0xEF, 0xBB, 0xBF] l0 (by decide)
  have hs1 : line_start 1 ([0xEF, 0xBB, 0xBF] ++ l0) = lskip (rstrip (cstr l0)) := by
    simp [line_start, hc]
  have hs2 : line_start 1 l0 = lskip (rstrip (cstr l0)) := by
    simp [line_start, h]
  rw [classify_eq_start, classify_eq_start, hs1, hs2,
    classify_start_not_cont _ (fun h' => h'.1 rfl)]
  unfold classify_start
  simp

/-! ## Names contain no separator -/

theorem find_loop_free (cs : List Nat) :
    ∀ (t : List Nat) (w : Bool),
      ∀ c ∈ t.take (find_chars_or_comment_loop (some cs) w t), c ∉ cs := by
  intro t
  induction t with
  | nil => intro _ c hc; simp at hc
  | cons a s ih =>
    intro w c hc
    unfold find_chars_or_comment_loop at hc
    split_ifs at hc with hcond
    · simp only [List.take_succ_cons, List.mem_cons] at hc
      rcases hc with hc | hc
      · subst hc
        simp only [Bool.and_eq_true, decide_eq_true_eq] at hcond
        exact hcond.1
      · exact ih _ c hc
    · simp at hc

theorem pair_name_free {lineno : Nat} {prev_name buf name value : List Nat}
    (h : classify lineno prev_name buf = .pair name value) : 61 ∉ name := by
  rw [classify_eq_start] at h
  unfold classify_start at h
  split_ifs at h
  simp only [LineKind.pair.injEq] at h
  rw [← h.1]
  intro hmem
  rw [rstrip_eq_rdropWhile] at hmem
  have hsub : 61 ∈ (line_start lineno buf).take
      (find_chars_or_comment (line_start lineno buf) (some [61, 58])) :=
    ( List.rdropWhile_prefix isspace _).subset hmem
  exact find_loop_free [61, 58] _ false 61 hsub (by simp)

theorem steps_name_free (lines : List (List Nat)) :
    ∀ (lineno : Nat) (sec prev_name : List Nat) (k : Nat) (e : List Nat × List Nat × LineKind),
      61 ∉ prev_name → (line_steps lines lineno sec prev_name)[k]? = some e → 61 ∉ e.2.1 := by
  induction lines with
  | nil => intro _ _ _ k _ _ h; simp [line_steps] at h
  | cons b lines ih =>
    intro lineno sec prev_name k e hp h
    cases k with
    | zero =>
      simp only [line_steps, List.getElem?_cons_zero, Option.some.injEq] at h
      subst h
      exact hp
    | succ k =>
      simp only [line_steps, List.getElem?_cons_succ] at h
      refine ih _ _ _ k e ?_ h
      cases hc : classify (lineno + 1) prev_name b with
      | header s => simp [LineKind.next_prev_name]
      | ignored => exact hp
      | continuation v => exact hp
      | malformed => exact hp
      | pair a v =>
        simp only [LineKind.next_prev_name, strncpy0]
        exact fun hm => pair_name_free hc (List.mem_of_mem_take hm)

theorem call_name_free {lines : List (List Nat)} {c : Call} (hc : c ∈ ini_calls lines) :
    61 ∉ c.2.1 := by
  rw [ini_calls_eq_scan, scan_calls_eq_steps, List.mem_filterMap] at hc
  obtain ⟨e, he, hce⟩ := hc
  obtain ⟨k, hk⟩ := List.getElem?_of_mem he
  have hprev := steps_name_free lines 0 [] [] k e (by simp) hk
  obtain ⟨buf, _, hkind⟩ := steps_kind lines 0 [] [] k e hk
  cases hkd : e.2.2 with
  | ignored => rw [hkd] at hce; simp [LineKind.call] at hce
  | malformed => rw [hkd] at hce; simp [LineKind.call] at hce
  | header s => rw [hkd] at hce; simp [LineKind.call] at hce
  | continuation v =>
    rw [hkd] at hce
    simp only [LineKind.call, Option.some.injEq] at hce
    rw [← hce]
    exact hprev
  | pair a v =>
    rw [hkd] at hce hkind
    simp only [LineKind.call, Option.some.injEq] at hce
    rw [← hce]
    exact pair_name_free hkind.symm

theorem split_at_last (x : Nat) : ∀ (a a' b b' : List Nat), x ∉ b → x ∉ b' →
    a ++ x :: b = a' ++ x :: b' → a = a' ∧ b = b' := by
  intro a
  induction a with
  | nil =>
    intro a' b b' hb _ h
    cases a' with
    | nil => simpa using h
    | cons y a'' =>
      simp only [List.nil_append, List.cons_append, List.cons.injEq] at h
      exact absurd (h.2 ▸ (by simp : x ∈ a'' ++ x :: b')) hb
  | cons z a1 ih =>
    intro a' b b' hb hb' h
    cases a' with
    | nil =>
      simp only [List.nil_append, List.cons_append, List.cons.injEq] at h
      exact absurd (h.2 ▸ (by simp : x ∈ a1 ++ x :: b)) hb'
    | cons y a'' =>
      simp only [List.cons_append, List.cons.injEq] at h
      obtain ⟨h1, h2⟩ := ih a'' b b' hb hb' h.2
      exact ⟨by rw [h.1, h1], h2⟩

theorem lower_free {n : List Nat} (h : 61 ∉ n) : 61 ∉ n.map tolower := by
  intro hm
  obtain ⟨c, hc, hce⟩ := List.mem_map.mp hm
  have : c = 61 := by
    unfold tolower at hce
    split_ifs at hce <;> omega
  exact h (this ▸ hc)

/-! ## The claims -/

/-- C1 (amended). Round trip through parser and store: for a section `S` (no NUL, no
newline, no `]`, at most 49 bytes), a name `N` (no NUL, no newline, no `=` or `:`,
not starting with `;`, `#` or `[`) and a value `V` (no NUL, no newline), `N` and
`V` without leading or trailing whitespace, none of the three with a whitespace
byte immediately followed by `;`, and the line `N=V` of at most 198 bytes, so that
with its newline it fits the line buffer, the store built from the file with the
two lines `[S]` and `N=V` has `error() = 0` and `get<string>(S, N, d)` returns `V`
for every default `d`. -/
theorem C1_round_trip (S N V d : List Nat)
    (hS0 : 0 ∉ S) (hN0 : 0 ∉ N) (hV0 : 0 ∉ V)
    (hSn : 10 ∉ S) (hNn : 10 ∉ N) (hVn : 10 ∉ V)
    (hSb : 93 ∉ S) (hSlen : S.length ≤ 49)
    (hNe : 61 ∉ N) (hNc : 58 ∉ N)
    (hNh : N.head? ≠ some 59 ∧ N.head? ≠ some 35 ∧ N.head? ≠ some 91)
    (hNl : ∀ c, N.head? = some c → isspace c = false)
    (hNr : ∀ c, N.getLast? = some c → isspace c = false)
    (hVl : ∀ c, V.head? = some c → isspace c = false)
    (hVr : ∀ c, V.getLast? = some c → isspace c = false)
    (hSs : has_ws_semicolon S = false) (hNs : has_ws_semicolon N = false)
    (hVs : has_ws_semicolon V = false)
    (hlen : N.length + 1 + V.length ≤ 198) :
    (INIReader.of_file (91 :: S ++ [93, 10] ++ N ++ 61 :: V ++ [10])).error = 0 ∧
    (INIReader.of_file (91 :: S ++ [93, 10] ++ N ++ 61 :: V ++ [10])).get_string S N d = V := by
  have hfile : 91 :: S ++ [93, 10] ++ N ++ 61 :: V ++ [10] =
      (91 :: S ++ [93]) ++ 10 :: ((N ++ 61 :: V) ++ 10 :: []) := by simp
  have hfuel : (91 :: S ++ [93, 10] ++ N ++ 61 :: V ++ [10]).length =
      (S.length + N.length + V.length + 3) + 1 + 1 := by
    simp only [List.length_append, List.length_cons, List.length_nil]
    omega
  have h1 : 10 ∉ 91 :: S ++ [93] := by simp [hSn]
  have h2 : 10 ∉ N ++ 61 :: V := by simp [hNn, hVn]
  have hl1 : (91 :: S ++ [93]).length < INI_MAX_LINE - 1 := by
    simp only [List.length_append, List.length_cons, List.length_nil, INI_MAX_LINE]
    omega
  have hl2 : (N ++ 61 :: V).length < INI_MAX_LINE - 1 := by
    simp only [List.length_append, List.length_cons, INI_MAX_LINE]
    omega
  have hlines : fgets_lines (91 :: S ++ [93, 10] ++ N ++ 61 :: V ++ [10]).length
      (91 :: S ++ [93, 10] ++ N ++ 61 :: V ++ [10]) =
      [91 :: S ++ 93 :: [10], N ++ 61 :: V ++ [10]] := by
    rw [hfuel, hfile, fgets_lines_line _ _ _ h1 hl1, fgets_lines_line _ _ _ h2 hl2,
      fgets_lines_nil]
    simp
  rw [of_file_eq, hlines]
  exact round_trip_lines S N V [10] [10] d hS0 hN0 hV0 hSb hSlen hNe hNc hNh hNl hNr hVl hVr
    hSs hNs hVs (by decide) (by decide)

/-- A concrete instance of `C1_round_trip`. -/
theorem C1_round_trip_witness :
    (INIReader.of_file (str "[Net Work]\nHost Name=a b;c\n")).error = 0 ∧
    (INIReader.of_file (str "[Net Work]\nHost Name=a b;c\n")).get_string
      (str "Net Work") (str "Host Name") (str "dflt") = str "a b;c" :=
  C1_round_trip (str "Net Work") (str "Host Name") (str "a b;c") (str "dflt")
    (by decide) (by decide) (by decide) (by decide) (by decide) (by decide) (by decide)
    (by decide) (by decide) (by decide) (by decide) (by decide) (by decide) (by decide)
    (by decide) (by decide) (by decide) (by decide) (by decide)

set_option maxRecDepth 100000 in
/-- C1 as stated, without a bound on the length of the line, fails: `S = s`, `N = k`
and `V` made of 198 bytes `v` meet every condition of the claim, but the line
`k=vvv...` has 200 bytes, `fgets` hands it to the parser in two pieces, the second
piece is recorded as an error on line 3, and the value stored for (`s`, `k`) is
only the first 197 bytes of `V`. -/
theorem C1_counterexample :
    ¬ (∀ S N V d : List Nat, 0 ∉ S → 0 ∉ N → 0 ∉ V → 10 ∉ S → 10 ∉ N → 10 ∉ V →
        93 ∉ S → S.length ≤ 49 → 61 ∉ N → 58 ∉ N →
        (N.head? ≠ some 59 ∧ N.head? ≠ some 35 ∧ N.head? ≠ some 91) →
        (∀ c, N.head? = some c → isspace c = false) →
        (∀ c, N.getLast? = some c → isspace c = false) →
        (∀ c, V.head? = some c → isspace c = false) →
        (∀ c, V.getLast? = some c → isspace c = false) →
        has_ws_semicolon S = false → has_ws_semicolon N = false →
        has_ws_semicolon V = false →
        (INIReader.of_file (91 :: S ++ [93, 10] ++ N ++ 61 :: V ++ [10])).error = 0 ∧
        (INIReader.of_file (91 :: S ++ [93, 10] ++ N ++ 61 :: V ++ [10])).get_string S N d =
          V) := by
  intro h
  have h1 := (h (str "s") (str "k") (List.replicate 198 118) (str "") (by decide) (by decide)
    (by decide) (by decide) (by decide) (by decide) (by decide) (by decide) (by decide)
    (by decide) (by decide) (by decide) (by decide) (by decide) (by decide) (by decide)
    (by decide) (by decide)).1
  have h2 : (INIReader.of_file
      (91 :: str "s" ++ [93, 10] ++ str "k" ++ 61 :: List.replicate 198 118 ++ [10])).error = 3 := by
    decide
  rw [h2] at h1
  exact absurd h1 (by decide)

/-- C2 (amended). Accumulation rule of the store callback: after `value_handler`
on (section, name, value) the entry at the normalized key is `old`, a newline and
`value` when an entry with a non-empty string `old` was stored there, and is
`value` when there was no entry or the stored string was empty. For the input
`[a]`, `x=1`, `x=2` the string getter returns `1\n2`. -/
theorem C2_accumulation (r : INIReader) (sec name value : List Nat) :
    (value_handler r sec name value).2._values (make_key sec name) =
      some (match r._values (make_key sec name) with
            | some old => if old = [] then value else old ++ str "\n" ++ value
            | none => value) ∧
    (INIReader.of_file (str "[a]\nx=1\nx=2\n")).get_string (str "a") (str "x") (str "") =
      str "1\n2" := by
  constructor
  · cases h : r._values (make_key sec name) with
    | none => simp [value_handler, h]
    | some old =>
      cases old with
      | nil => simp [value_handler, h]
      | cons a t => simp [value_handler, h]
  · decide

/-- C2 as stated fails: after parsing `[a]`, `x=` an entry exists at the key of
(a, x) and holds the empty string; `value_handler` with value `1` leaves `1`
there, not the old string followed by a newline and `1`. -/
theorem C2_counterexample :
    (INIReader.of_file (str "[a]\nx=\n"))._values (make_key (str "a") (str "x")) =
      some (str "") ∧
    (value_handler (INIReader.of_file (str "[a]\nx=\n")) (str "a") (str "x")
        (str "1")).2._values (make_key (str "a") (str "x")) ≠
      some (str "" ++ str "\n" ++ str "1") ∧
    (INIReader.of_file (str "[a]\nx=\nx=1\n")).get_string (str "a") (str "x") (str "") =
      str "1" := by
  decide

/-- C3 (amended). Result code of `ini_parse_stream`: 0 when no line is recorded as
an error, otherwise the 1-based number of the first line that is recorded; a line
is recorded (`line_fails`) when the handler it invokes returns zero or when it
takes a syntax-error branch, that is, a section line whose scan for `]` ends at
the end of the line or at an inline comment, or a pair line whose scan for `=` or
`:` ends so. -/
theorem C3_first_error_line {υ : Type} (handler : Handler υ) (user : υ)
    (lines : List (List Nat)) :
    (ini_parse_stream lines handler user).1 =
      if true ∈ line_results handler (ParseState.init user) lines
      then (line_results handler (ParseState.init user) lines).indexOf true + 1
      else 0 := by
  simp only [ini_parse_stream, loop_error, ParseState.init]
  simp

/-- C3 as stated fails: the single line `[a ;b]` is a section line with a closing
`]`, so not a syntax error in the wording of the claim, and no callback is
invoked, yet the result is 1. -/
theorem C3_counterexample :
    spec_syntax_error (str "[a ;b]") = false ∧
    ini_calls [str "[a ;b]"] = [] ∧
    (ini_parse_stream [str "[a ;b]"] record []).1 = 1 := by
  decide

/-- C4. Syntax errors are non-fatal and do not affect what is stored: replacing the
lines that take a syntax-error branch (all of them, or any part of them chosen by
content through `sel`) by empty lines leaves the sequence of callback invocations
unchanged, and so the final user state of every handler. For `[section`, `x=1`
the error is 1 and the string getter finds `1` for (``, x). -/
theorem C4_syntax_errors_non_fatal (sel : List Nat → Bool) (lines : List (List Nat)) :
    ini_calls (blank_malformed sel lines 0 []) = ini_calls lines ∧
    (∀ (υ : Type) (handler : Handler υ) (user : υ),
      (ini_parse_stream (blank_malformed sel lines 0 []) handler user).2 =
        (ini_parse_stream lines handler user).2) ∧
    (INIReader.of_file (str "[section\nx=1\n")).error = 1 ∧
    (INIReader.of_file (str "[section\nx=1\n")).get_string (str "") (str "x") (str "") =
      str "1" := by
  have h : ini_calls (blank_malformed sel lines 0 []) = ini_calls lines := by
    rw [ini_calls_eq_scan, ini_calls_eq_scan, scan_blank]
  refine ⟨h, ?_, by decide, by decide⟩
  intro υ handler user
  rw [stream_user, stream_user, h]

/-- C5. Lookup with main fallback: `get<string>(s, n, d)` is the value stored at the
key of (s, n) if present, otherwise the value stored at the key of (main, n) if
present, otherwise `d`. -/
theorem C5_lookup_main_fallback (r : INIReader) (sec name d : List Nat) :
    r.get_string sec name d =
      match r._values (make_key sec name) with
      | some v => v
      | none =>
        match r._values (make_key (str "main") name) with
        | some v => v
        | none => d := by
  unfold INIReader.get_string map_count map_at
  cases h1 : r._values (make_key sec name) with
  | some v => simp [h1]
  | none =>
    cases h2 : r._values (make_key (str "main") name) with
    | some v => simp [h1, h2]
    | none => simp [h1, h2]

/-- C6. Case-insensitive matching: `get<string>` gives the same result for sections
and names that agree after ASCII lower-casing; and two inputs, given as line
buffers or as files, that agree after lower-casing and pass identical values to the
callback (that is, that differ only in the letter case of section headers and key
names) give stores with identical `get<string>` results. -/
theorem C6_case_insensitive :
    (∀ (r : INIReader) (s s' n n' d : List Nat), s.map tolower = s'.map tolower →
      n.map tolower = n'.map tolower → r.get_string s n d = r.get_string s' n' d) ∧
    (∀ (lines lines' : List (List Nat)),
      lines.map (List.map tolower) = lines'.map (List.map tolower) →
      (ini_calls lines).map (fun c => c.2.2) = (ini_calls lines').map (fun c => c.2.2) →
      ∀ s n d : List Nat,
        (INIReader.of_lines lines).get_string s n d =
          (INIReader.of_lines lines').get_string s n d) ∧
    (∀ (file file' : List Nat), file.map tolower = file'.map tolower →
      (ini_calls (fgets_lines file.length file)).map (fun c => c.2.2) =
        (ini_calls (fgets_lines file'.length file')).map (fun c => c.2.2) →
      ∀ s n d : List Nat,
        (INIReader.of_file file).get_string s n d =
          (INIReader.of_file file').get_string s n d) := by
  have hlines : ∀ (lines lines' : List (List Nat)),
      lines.map (List.map tolower) = lines'.map (List.map tolower) →
      (ini_calls lines).map (fun c => c.2.2) = (ini_calls lines').map (fun c => c.2.2) →
      ∀ s n d : List Nat,
        (INIReader.of_lines lines).get_string s n d =
          (INIReader.of_lines lines').get_string s n d := by
    intro lines lines' hl hv s n d
    apply get_string_congr
    rw [of_lines_values, of_lines_values]
    congr 1
    apply kv_eq_of_lower _ _ _ hv
    rw [← ini_calls_lower, ← ini_calls_lower, hl]
  refine ⟨?_, hlines, ?_⟩
  · intro r s s' n n' d hs hn
    simp only [INIReader.get_string, make_key_eq, hs, hn]
  · intro file file' hf hv s n d
    apply hlines _ _ _ hv
    have hlen : file.length = file'.length := by
      have := congrArg List.length hf
      simpa using this
    rw [← fgets_lines_lower, ← fgets_lines_lower, hf, hlen]

/-- A concrete instance of `C6_case_insensitive`. -/
theorem C6_case_insensitive_witness :
    (INIReader.of_lines [str "[Net]", str "Host = Alpha"]).get_string (str "NET") (str "host")
        (str "") =
      (INIReader.of_lines [str "[Net]", str "Host = Alpha"]).get_string (str "net") (str "HOST")
        (str "") ∧
    (INIReader.of_lines [str "[Net]", str "Host = Alpha", str "  Beta"]).get_string (str "net")
        (str "host") (str "") =
      (INIReader.of_lines [str "[nEt]", str "hOST = Alpha", str "  Beta"]).get_string (str "net")
        (str "host") (str "") ∧
    (INIReader.of_file (str "[Net]\nHost = Alpha\n  Beta\n")).get_string (str "net")
        (str "host") (str "") =
      (INIReader.of_file (str "[nEt]\nhOST = Alpha\n  Beta\n")).get_string (str "net")
        (str "host") (str "") :=
  ⟨C6_case_insensitive.1 (INIReader.of_lines [str "[Net]", str "Host = Alpha"]) (str "NET")
      (str "net") (str "host") (str "HOST") (str "") (by decide) (by decide),
   C6_case_insensitive.2.1 [str "[Net]", str "Host = Alpha", str "  Beta"]
      [str "[nEt]", str "hOST = Alpha", str "  Beta"] (by decide) (by decide) (str "net")
      (str "host") (str ""),
   C6_case_insensitive.2.2 (str "[Net]\nHost = Alpha\n  Beta\n")
      (str "[nEt]\nhOST = Alpha\n  Beta\n") (by decide) (by decide) (str "net")
      (str "host") (str "")⟩

/-- C7. The inline comment is not stripped when it directly follows the whitespace
after the separator: for the pair line `k= ;c` the callback value is `;c`, although
that `;` is preceded by a whitespace byte in the line, so that the value in the
wording of the claim is empty. For `[s]`, `k = 10 ; comment` the callback value is
`10`, as in the wording of the claim, and `get<long>` returns 10. -/
theorem C7_comment_after_separator :
    ini_calls [str "k= ;c"] = [(str "", str "k", str ";c")] ∧
    spec_pair_value (str "k= ;c") = str "" ∧
    ini_calls [str "[s]\n", str "k = 10 ; comment\n"] = [(str "s", str "k", str "10")] ∧
    spec_pair_value (str "k = 10 ; comment\n") = str "10" ∧
    (INIReader.of_file (str "[s]\nk = 10 ; comment\n")).get_long (str "s") (str "k") 0 = 10 := by
  decide

/-- C8. Content of `sections()`: a string is in `sections()` exactly when it was the
section of some callback invocation, and the empty string is in it whenever some
line is parsed as a name/value pair with no section header accepted on the lines
before it. For the input `x=5`, `sections()` contains the empty string and
`get<long>` of (``, x) is 5. -/
theorem C8_sections_content (lines : List (List Nat)) :
    (∀ s, s ∈ (INIReader.of_lines lines).sections ↔ ∃ c ∈ ini_calls lines, c.1 = s) ∧
    (∀ (k : Nat) (name value : List Nat),
      (line_kinds lines 0 [])[k]? = some (.pair name value) →
      (∀ j, j < k → ∀ s, (line_kinds lines 0 [])[j]? ≠ some (.header s)) →
      [] ∈ (INIReader.of_lines lines).sections) ∧
    str "" ∈ (INIReader.of_file (str "x=5\n")).sections ∧
    (INIReader.of_file (str "x=5\n")).get_long (str "") (str "x") 0 = 5 := by
  have h1 : ∀ s, s ∈ (INIReader.of_lines lines).sections ↔ ∃ c ∈ ini_calls lines, c.1 = s := by
    intro s
    rw [of_lines_sections, mem_sections_fold]
    simp [INIReader.empty]
  refine ⟨h1, ?_, by decide, by decide⟩
  intro k name value hk hno
  rw [h1]
  refine ⟨([], name, value), ?_, rfl⟩
  rw [ini_calls_eq_scan]
  exact pair_call_mem lines 0 [] [] k name value hk hno

/-- A concrete instance of `C8_sections_content`. -/
theorem C8_sections_content_witness :
    [] ∈ (INIReader.of_lines [str "; settings", str "x=5", str "[s]", str "y=6"]).sections :=
  (C8_sections_content [str "; settings", str "x=5", str "[s]", str "y=6"]).2.1 1 (str "x")
    (str "5") (by decide)
    (fun j hj s => by
      have hj0 : j = 0 := by omega
      subst hj0
      have e : (line_kinds [str "; settings", str "x=5", str "[s]", str "y=6"] 0 [])[0]? =
          some LineKind.ignored := by decide
      rw [e]
      intro h
      cases h)

/-- C9. A section header that no name/value pair follows is not listed: the line
`[empty]` is accepted as a section header and parsing ends without error, yet
`sections()` is empty; with a pair after it the section is listed. -/
theorem C9_header_without_pairs :
    classify 1 [] (str "[empty]\n") = .header (str "empty") ∧
    (INIReader.of_file (str "[empty]\n")).error = 0 ∧
    (INIReader.of_file (str "[empty]\n")).sections = [] ∧
    (INIReader.of_file (str "[empty]\n[full]\nx=1\n")).sections = [str "full"] := by
  decide

/-- C10. Boolean coercion: with `L` the lower-cased string found by
`get<string>(s, n, "")`, `get<bool>(s, n, d)` is true if `L` is one of `true`, `yes`,
`on`, `1`, false if it is one of `false`, `no`, `off`, `0`, and `d` otherwise, which
includes an absent key and an empty value. `[s]`, `k=true` gives true with default
false; `k=maybe` gives the default. -/
theorem C10_bool_coercion (r : INIReader) (s n : List Nat) (d : Bool) :
    r.get_bool s n d =
      (if (r.get_string s n (str "")).map tolower ∈ [str "true", str "yes", str "on", str "1"]
       then true
       else if (r.get_string s n (str "")).map tolower ∈
           [str "false", str "no", str "off", str "0"]
       then false
       else d) ∧
    (r.get_string s n (str "") = [] → r.get_bool s n d = d) ∧
    (INIReader.of_file (str "[s]\nk=true\n")).get_bool (str "s") (str "k") false = true ∧
    (INIReader.of_file (str "k=maybe")).get_bool (str "") (str "k") d = d := by
  refine ⟨?_, ?_, by decide, by cases d <;> decide⟩
  · simp only [INIReader.get_bool, List.mem_cons, List.mem_singleton, List.not_mem_nil,
      or_false]
  · intro h
    simp only [INIReader.get_bool, h, List.map_nil]
    cases d <;> decide

/-- A concrete instance of `C10_bool_coercion`: an absent key gives the default. -/
theorem C10_bool_coercion_witness :
    (INIReader.of_file (str "[s]\nk=true\n")).get_bool (str "s") (str "other") true = true :=
  (C10_bool_coercion (INIReader.of_file (str "[s]\nk=true\n")) (str "s") (str "other") true).2.1
    (by decide)

/-- C11 (amended). Integer coercion: with `v` the string found by
`get<string>(s, n, "")`, `get<long>(s, n, d)` is `d` when `strtol` consumes no byte of
`v`, which includes an absent key, and otherwise the number `strtol` returns: the
longest leading run of digits read in base 16 after `0x` or `0X`, in base 8 when
it otherwise starts with `0`, and in base 10 otherwise. In particular a non-empty
string of decimal digits that does not start with `0` and denotes a number
representable in a `long` yields that number. -/
theorem C11_integer_coercion (r : INIReader) (s n : List Nat) (d : Int) :
    (r.get_long s n d =
      if (strtol (cstr (r.get_string s n (str ""))) 0).2 = 0 then d
      else (strtol (cstr (r.get_string s n (str ""))) 0).1) ∧
    (r.get_string s n (str "") = [] → r.get_long s n d = d) ∧
    (∀ ds t : List Nat, r.get_string s n (str "") = ds ++ t → ds ≠ [] →
      (∀ c ∈ ds, 48 ≤ c ∧ c ≤ 57) → ds.head? ≠ some 48 →
      (∀ c, t.head? = some c → ¬ (48 ≤ c ∧ c ≤ 57)) →
      ((digits_value 10 ds : Nat) : Int) ≤ LONG_MAX →
      r.get_long s n d = digits_value 10 ds) ∧
    (∀ (x : Nat) (h t : List Nat), r.get_string s n (str "") = 48 :: x :: h ++ t →
      (x = 120 ∨ x = 88) → h ≠ [] → (∀ c ∈ h, is_digit 16 c = true) →
      (∀ c, t.head? = some c → is_digit 16 c = false) →
      ((digits_value 16 h : Nat) : Int) ≤ LONG_MAX →
      r.get_long s n d = digits_value 16 h) ∧
    (∀ o t : List Nat, r.get_string s n (str "") = 48 :: o ++ t →
      (∀ c ∈ o, 48 ≤ c ∧ c ≤ 55) →
      (∀ c, t.head? = some c → ¬ (48 ≤ c ∧ c ≤ 55) ∧ c ≠ 120 ∧ c ≠ 88) →
      ((digits_value 8 (48 :: o) : Nat) : Int) ≤ LONG_MAX →
      r.get_long s n d = digits_value 8 (48 :: o)) := by
  refine ⟨get_long_eq r s n d, ?_, ?_, ?_, ?_⟩
  · intro h
    rw [get_long_eq, h]
    rfl
  · intro ds t hv hne hds h0 ht hle
    have hnul : 0 ∉ ds := fun h => by have := (hds 0 h).1; omega
    rw [get_long_eq, hv, cstr_append_left t hnul,
      strtol_decimal ds (cstr t) hne hds h0 (fun c hc => ht c (head_cstr hc))]
    have hlen : ds.length ≠ 0 := fun e => hne (List.length_eq_zero.mp e)
    simp only [hlen, if_false]
    exact clamp_of_le hle
  · intro x h t hv hx hne hh ht hle
    have hnul : 0 ∉ 48 :: x :: h := by
      intro h0
      rcases List.mem_cons.mp h0 with e | h0
      · omega
      · rcases List.mem_cons.mp h0 with e | h0
        · rcases hx with e' | e' <;> omega
        · have := digit_ge (hh 0 h0); omega
    have e1 : 48 :: x :: h ++ t = (48 :: x :: h) ++ t := rfl
    have e2 : (48 :: x :: h) ++ cstr t = 48 :: x :: h ++ cstr t := rfl
    rw [get_long_eq, hv, e1, cstr_append_left t hnul, e2,
      strtol_hex x h (cstr t) hx hne hh (fun c hc => ht c (head_cstr hc))]
    have hlen : 2 + h.length ≠ 0 := by omega
    simp only [hlen, if_false]
    exact clamp_of_le hle
  · intro o t hv ho ht hle
    have hnul : 0 ∉ 48 :: o := by
      intro h0
      rcases List.mem_cons.mp h0 with e | h0
      · omega
      · have := (ho 0 h0).1; omega
    have e1 : 48 :: o ++ t = (48 :: o) ++ t := rfl
    have e2 : (48 :: o) ++ cstr t = 48 :: o ++ cstr t := rfl
    rw [get_long_eq, hv, e1, cstr_append_left t hnul, e2,
      strtol_octal o (cstr t) ho (fun c hc => ht c (head_cstr hc))]
    have hlen : 1 + o.length ≠ 0 := by omega
    simp only [hlen, if_false]
    exact clamp_of_le hle

/-- A concrete instance of `C11_integer_coercion`: an absent key, a decimal, a
hexadecimal and an octal value. -/
theorem C11_integer_coercion_witness :
    (INIReader.of_file (str "[s]\na=1234\nb=0x4D2\nc=0755\n")).get_long (str "s") (str "z") 7 = 7 ∧
    (INIReader.of_file (str "[s]\na=1234\nb=0x4D2\nc=0755\n")).get_long (str "s") (str "a") 7 =
      1234 ∧
    (INIReader.of_file (str "[s]\na=1234\nb=0x4D2\nc=0755\n")).get_long (str "s") (str "b") 7 =
      1234 ∧
    (INIReader.of_file (str "[s]\na=1234\nb=0x4D2\nc=0755\n")).get_long (str "s") (str "c") 7 =
      493 :=
  ⟨(C11_integer_coercion (INIReader.of_file (str "[s]\na=1234\nb=0x4D2\nc=0755\n")) (str "s")
      (str "z") 7).2.1 (by decide),
   (C11_integer_coercion (INIReader.of_file (str "[s]\na=1234\nb=0x4D2\nc=0755\n")) (str "s")
      (str "a") 7).2.2.1 (str "1234") [] (by decide) (by decide) (by decide) (by decide)
      (by decide) (by decide),
   (C11_integer_coercion (INIReader.of_file (str "[s]\na=1234\nb=0x4D2\nc=0755\n")) (str "s")
      (str "b") 7).2.2.2.1 120 (str "4D2") [] (by decide) (by decide) (by decide) (by decide)
      (by decide) (by decide),
   (C11_integer_coercion (INIReader.of_file (str "[s]\na=1234\nb=0x4D2\nc=0755\n")) (str "s")
      (str "c") 7).2.2.2.2 (str "755") [] (by decide) (by decide) (by decide) (by decide)⟩

/-- C11 as stated fails: the value `010` is a non-empty string of decimal digits that
denotes 10 in base 10, which a `long` can hold, but `get<long>` returns 8: `strtol`
with base 0 reads a leading `0` as the octal marker. -/
theorem C11_counterexample :
    (INIReader.of_file (str "[s]\nk=010\n")).get_string (str "s") (str "k") (str "") =
      str "010" ∧
    (∀ c ∈ str "010", 48 ≤ c ∧ c ≤ 57) ∧
    digits_value 10 (str "010") = 10 ∧
    ((10 : Nat) : Int) ≤ LONG_MAX ∧
    (INIReader.of_file (str "[s]\nk=010\n")).get_long (str "s") (str "k") 0 = 8 := by
  decide

/-- C12 (amended). Array retrieval of well-formed lists: for a stored value made of
`k >= 1` comma-separated segments, each an optionally signed decimal integer
surrounded by optional whitespace and representable in a `long`,
`get_array<long>` returns exactly the `k` integers of the segments, in the
original order, whatever the indeterminate initial content of `value`. The input
`[s]`, `list=1, 2, 3` gives `[1, 2, 3]`. -/
theorem C12_array_of_integers (r : INIReader) (s n : List Nat) (uninit : Int)
    (segs : List (List Nat)) (zs : List Int)
    (hv : r.get_string s n (str "") = comma_joined segs) (hne : segs ≠ [])
    (hseg : List.Forall₂ int_segment segs zs)
    (hr : ∀ z ∈ zs, LONG_MIN ≤ z ∧ z ≤ LONG_MAX) :
    r.get_array_long s n uninit = zs ∧
    (INIReader.of_file (str "[s]\nlist=1, 2, 3\n")).get_array_long (str "s") (str "list") uninit =
      [1, 2, 3] := by
  constructor
  · unfold INIReader.get_array_long
    simp only [hv]
    exact loop_comma_joined segs zs hseg hr hne _ uninit (length_le_comma_joined segs)
  · rfl

/-- A concrete instance of `C12_array_of_integers`. -/
theorem C12_array_of_integers_witness :
    (INIReader.of_file (str "[s]\nlist=-1, +2 ,3\n")).get_array_long (str "s") (str "list") 0 =
      [-1, 2, 3] :=
  (C12_array_of_integers (INIReader.of_file (str "[s]\nlist=-1, +2 ,3\n")) (str "s") (str "list")
    0 [str "-1", str " +2 ", str "3"] [-1, 2, 3] (by decide) (by decide)
    (List.Forall₂.cons
      ⟨[], [45], str "1", [], by decide, by decide, by decide, by decide, by decide, by decide,
        by decide⟩
      (List.Forall₂.cons
        ⟨[32], [43], str "2", [32], by decide, by decide, by decide, by decide, by decide,
          by decide, by decide⟩
        (List.Forall₂.cons
          ⟨[], [], str "3", [], by decide, by decide, by decide, by decide, by decide,
            by decide, by decide⟩
          List.Forall₂.nil)))
    (by decide)).1

/-- C12 as stated, without a bound on the integers, fails: the single segment
`99999999999999999999` is a decimal integer, but a `long` cannot hold it and
`get_array<long>` returns `LONG_MAX` instead. -/
theorem C12_counterexample :
    int_segment (str "99999999999999999999") 99999999999999999999 ∧
    (INIReader.of_file (str "[s]\nlist=99999999999999999999\n")).get_string (str "s")
        (str "list") (str "") = comma_joined [str "99999999999999999999"] ∧
    (INIReader.of_file (str "[s]\nlist=99999999999999999999\n")).get_array_long (str "s")
        (str "list") 0 = [9223372036854775807] :=
  ⟨⟨[], [], str "99999999999999999999", [], by decide, by decide, by decide, by decide,
      by decide, by decide, by decide⟩, by decide, by decide⟩

/-- C13 (amended). Continuation lines reuse the previous key. When the loop
classifies line `k` (0-based) of `lines` as a continuation, reaching it with
section `sec` and previous name `prev_name`: these are the section and the
previous name of the parser state after the lines before it, for every handler;
the line makes exactly one callback invocation, (sec, prev_name, value), where
value is the trimmed line cut at its inline comment and trimmed on the right; an
earlier line `j` of the same section is a name=value line whose callback got the
name `name`, no name=value line and no section header lies between the two,
`prev_name` is `name` cut to 49 characters, hence equal to `name` when `name` has
at most 49 characters; and in the store the entry of (sec, prev_name) becomes
the old string, a newline and value when the old string is non-empty, and value
when it is empty. -/
theorem C13_continuation_reuses_key (lines : List (List Nat)) (k : Nat)
    (sec prev_name value : List Nat)
    (h : (line_steps lines 0 [] [])[k]? = some (sec, prev_name, .continuation value)) :
    (∀ (υ : Type) (handler : Handler υ) (user : υ),
      (ini_parse_loop handler (ParseState.init user) (lines.take k)).«section» = sec ∧
      (ini_parse_loop handler (ParseState.init user) (lines.take k)).prev_name = prev_name) ∧
    ini_calls (lines.take (k + 1)) = ini_calls (lines.take k) ++ [(sec, prev_name, value)] ∧
    (∃ buf, lines[k]? = some buf ∧
      value = rstrip ((line_start (k + 1) buf).take
        (find_chars_or_comment (line_start (k + 1) buf) none))) ∧
    (∃ j name v0 prev_j, j < k ∧
      (line_steps lines 0 [] [])[j]? = some (sec, prev_j, .pair name v0) ∧
      ini_calls (lines.take (j + 1)) = ini_calls (lines.take j) ++ [(sec, name, v0)] ∧
      (∀ i e, j < i → i < k → (line_steps lines 0 [] [])[i]? = some e →
        e.2.2.assigns_name = false) ∧
      prev_name = strncpy0 name MAX_NAME ∧
      (name.length ≤ MAX_NAME - 1 → prev_name = name)) ∧
    (INIReader.of_lines (lines.take (k + 1)))._values (make_key sec prev_name) =
      some (match (INIReader.of_lines (lines.take k))._values (make_key sec prev_name) with
            | some old => if old = [] then value else old ++ str "\n" ++ value
            | none => value) := by
  have hcall := ini_calls_take_succ lines k _ h
  simp only [LineKind.call, Option.toList] at hcall
  obtain ⟨buf, hbuf, hkind⟩ := steps_kind lines 0 [] [] k _ h
  simp only [Nat.zero_add] at hkind
  refine ⟨?_, hcall, ⟨buf, hbuf, continuation_value hkind.symm⟩, ?_, ?_⟩
  · intro υ handler user
    have h3 := steps_state handler lines (ParseState.init user) k _ h
    exact ⟨h3.1, h3.2.1⟩
  · rcases continuation_origin lines 0 [] [] k sec prev_name value h with
      ⟨_, hp, _⟩ | ⟨j, name, v0, prev_j, hj, hjs, hp, hall⟩
    · exact absurd hp (continuation_prev_ne hkind.symm)
    · refine ⟨j, name, v0, prev_j, hj, hjs, ?_, hall, hp, ?_⟩
      · have := ini_calls_take_succ lines j _ hjs
        simpa only [LineKind.call, Option.toList] using this
      · intro hlen
        rw [hp, strncpy0, List.take_of_length_le hlen]
  · rw [of_lines_values, of_lines_values, hcall, List.map_append, List.foldl_append]
    exact store_value_at _ _ _

/-- C13, evaluated: in `[s]`, `k=a`, `  b` the third line is a continuation with
section `s` and name `k`, it makes the invocation (s, k, b), and the string
getter on the file returns `a`, a newline and `b`. -/
theorem C13_continuation_reuses_key_witness :
    (line_steps [str "[s]", str "k=a", str "  b"] 0 [] [])[2]? =
      some (str "s", str "k", .continuation (str "b")) ∧
    ini_calls ([str "[s]", str "k=a", str "  b"].take (2 + 1)) =
      ini_calls ([str "[s]", str "k=a", str "  b"].take 2) ++ [(str "s", str "k", str "b")] ∧
    (INIReader.of_file (str "[s]\nk=a\n  b\n")).get_string (str "s") (str "k") (str "") =
      str "a\nb" :=
  ⟨by decide,
   (C13_continuation_reuses_key [str "[s]", str "k=a", str "  b"] 2 (str "s") (str "k") (str "b")
      (by decide)).2.1,
   by decide⟩

/-- C13 as stated fails: in `[s]`, `k=`, `  b` the third line is a continuation of
the key `k`, whose stored value is empty; the store then holds `b`, not the old
value followed by a newline and `b`. -/
theorem C13_counterexample :
    (line_steps [str "[s]", str "k=", str "  b"] 0 [] [])[2]? =
      some (str "s", str "k", .continuation (str "b")) ∧
    (INIReader.of_file (str "[s]\nk=\n")).get_string (str "s") (str "k") (str "") = str "" ∧
    (INIReader.of_file (str "[s]\nk=\n  b\n")).get_string (str "s") (str "k") (str "") =
      str "b" ∧
    (INIReader.of_file (str "[s]\nk=\n  b\n")).get_string (str "s") (str "k") (str "") ≠
      str "" ++ str "\n" ++ str "b" := by
  decide

/-- C14. The section of every callback invocation, and the name of every
invocation made by a continuation line, have at most 49 characters; a
name=value line passes its name at full length. On the lines `nn…n=v` (50 times
`n`) and `  w` the callback gets a name of 50 characters for the first line and
its first 49 characters for the second. -/
theorem C14_bounded_section_and_name :
    (∀ (lines : List (List Nat)) (k : Nat) (e : List Nat × List Nat × LineKind),
      (line_steps lines 0 [] [])[k]? = some e →
      e.1.length ≤ MAX_SECTION - 1 ∧ e.2.1.length ≤ MAX_NAME - 1) ∧
    (∀ (lines : List (List Nat)) (c : Call), c ∈ ini_calls lines →
      c.1.length ≤ MAX_SECTION - 1) ∧
    ini_calls [List.replicate 50 110 ++ str "=v", str "  w"] =
      [(str "", List.replicate 50 110, str "v"), (str "", List.replicate 49 110, str "w")] ∧
    (INIReader.of_file (List.replicate 50 110 ++ str "=v\n  w\n")).get_string (str "")
      (List.replicate 50 110) (str "") = str "v" ∧
    (INIReader.of_file (List.replicate 50 110 ++ str "=v\n  w\n")).get_string (str "")
      (List.replicate 49 110) (str "") = str "w" := by
  refine ⟨?_, ?_, by decide, by decide, by decide⟩
  · intro lines k e h
    exact steps_bound lines 0 [] [] k e (Nat.zero_le _) (Nat.zero_le _) h
  · intro lines c hc
    rw [ini_calls_eq_scan, scan_calls_eq_steps, List.mem_filterMap] at hc
    obtain ⟨e, he, hce⟩ := hc
    obtain ⟨k, hk⟩ := List.getElem?_of_mem he
    have hb := steps_bound lines 0 [] [] k e (Nat.zero_le _) (Nat.zero_le _) hk
    cases hkind : e.2.2 with
    | ignored => rw [hkind] at hce; simp [LineKind.call] at hce
    | malformed => rw [hkind] at hce; simp [LineKind.call] at hce
    | header s => rw [hkind] at hce; simp [LineKind.call] at hce
    | continuation v =>
      rw [hkind] at hce
      simp only [LineKind.call, Option.some.injEq] at hce
      rw [← hce]
      exact hb.1
    | pair a v =>
      rw [hkind] at hce
      simp only [LineKind.call, Option.some.injEq] at hce
      rw [← hce]
      exact hb.1

/-- C15 (amended). Byte-order-mark transparency. When the first line does not
itself begin with the bytes EF BB BF, prefixing it with these three bytes leaves
the result of `ini_parse_stream` unchanged for every callback: the same result
code and final user state, and the same sequence of callback invocations. On every line
other than line 1 nothing is stripped: the working string is the whole line
trimmed, and a later line `EF BB BF k=v` passes a name that begins with the three
bytes. -/
theorem C15_bom_transparent (l0 : List Nat) (rest : List (List Nat))
    (h : (cstr l0).take 3 ≠ [0xEF, 0xBB, 0xBF]) :
    (∀ (υ : Type) (handler : Handler υ) (user : υ),
      ini_parse_stream (([0xEF, 0xBB, 0xBF] ++ l0) :: rest) handler user =
        ini_parse_stream (l0 :: rest) handler user) ∧
    ini_calls (([0xEF, 0xBB, 0xBF] ++ l0) :: rest) = ini_calls (l0 :: rest) ∧
    (∀ (lineno : Nat) (buf : List Nat), lineno ≠ 1 →
      line_start lineno buf = lskip (rstrip (cstr buf))) ∧
    ini_calls [str "[s]", [0xEF, 0xBB, 0xBF] ++ str "k=v"] =
      [(str "s", [0xEF, 0xBB, 0xBF] ++ str "k", str "v")] := by
  have hstream : ∀ (υ : Type) (handler : Handler υ) (user : υ),
      ini_parse_stream (([0xEF, 0xBB, 0xBF] ++ l0) :: rest) handler user =
        ini_parse_stream (l0 :: rest) handler user := by
    intro υ handler user
    simp only [ini_parse_stream, ini_parse_loop_cons, ParseState.init, classify_bom l0 h]
  refine ⟨hstream, ?_, fun lineno buf hl => line_start_later hl buf, by decide⟩
  simp only [ini_calls, hstream]

/-- C15, evaluated: `[s]`, `k=v` with and without the three bytes before `[s]`. -/
theorem C15_bom_transparent_witness :
    (cstr (str "[s]")).take 3 ≠ [0xEF, 0xBB, 0xBF] ∧
    ini_calls (([0xEF, 0xBB, 0xBF] ++ str "[s]") :: [str "k=v"]) =
      ini_calls (str "[s]" :: [str "k=v"]) ∧
    ini_calls (str "[s]" :: [str "k=v"]) = [(str "s", str "k", str "v")] :=
  ⟨by decide, (C15_bom_transparent (str "[s]") [str "k=v"] (by decide)).2.1, by decide⟩

/-- C15 as stated fails: the input `EF BB BF [s]`, `k=v` gives the invocation
(s, k, v) and result 0; with the three bytes once more before the first line,
only one mark is stripped, line 1 is a syntax error and the invocation is
(empty section, k, v). -/
theorem C15_counterexample :
    ini_calls [[0xEF, 0xBB, 0xBF] ++ str "[s]", str "k=v"] = [(str "s", str "k", str "v")] ∧
    (ini_parse_stream [[0xEF, 0xBB, 0xBF] ++ str "[s]", str "k=v"] record []).1 = 0 ∧
    ini_calls [[0xEF, 0xBB, 0xBF] ++ ([0xEF, 0xBB, 0xBF] ++ str "[s]"), str "k=v"] =
      [(str "", str "k", str "v")] ∧
    (ini_parse_stream [[0xEF, 0xBB, 0xBF] ++ ([0xEF, 0xBB, 0xBF] ++ str "[s]"), str "k=v"]
      record []).1 = 1 := by
  decide

/-- C16 (amended). An inline comment hides the name/value separator: on a pair line
(working string non-empty, not starting with `;`, `#` or `[`, not a continuation)
whose first `=` or `:` is `c`, after the text `pre`, the loop splits there and
invokes the callback with the name `pre` (trimmed) when no `;` preceded by
whitespace occurs in `pre`, and takes the syntax-error branch, without a callback,
when one does. The line `a ;b=c` yields no callback and the result 1. -/
theorem C16_comment_hides_separator (lineno : Nat) (prev_name buf pre post : List Nat) (c : Nat)
    (hstart : line_start lineno buf = pre ++ c :: post)
    (hc : c = 61 ∨ c = 58) (hpre : 61 ∉ pre ∧ 58 ∉ pre)
    (hhead : (pre ++ c :: post).head? ≠ some 59 ∧ (pre ++ c :: post).head? ≠ some 35 ∧
      (pre ++ c :: post).head? ≠ some 91)
    (hcont : ¬ (prev_name ≠ [] ∧ line_indented lineno buf = true)) :
    (has_ws_semicolon pre = false →
      classify lineno prev_name buf =
        .pair (rstrip pre)
          (rstrip ((lskip post).take (find_chars_or_comment (lskip post) none)))) ∧
    (has_ws_semicolon pre = true → classify lineno prev_name buf = .malformed) ∧
    ini_calls [str "a ;b=c"] = [] ∧
    (ini_parse_stream [str "a ;b=c"] record []).1 = 1 := by
  have hfree : ∀ cs, some [61, 58] = some cs → ∀ x ∈ pre, x ∉ cs := by
    intro cs hcs x hx hm
    cases hcs
    have : x = 61 ∨ x = 58 := by simpa using hm
    rcases this with e | e
    · exact hpre.1 (e ▸ hx)
    · exact hpre.2 (e ▸ hx)
  have hne : pre ++ c :: post ≠ [] := by simp
  refine ⟨?_, ?_, by decide, by decide⟩
  · intro hs
    have hf : find_chars_or_comment (pre ++ c :: post) (some [61, 58]) = pre.length := by
      unfold find_chars_or_comment
      apply find_loop_pass _ _ _ _ _ hfree hs (fun h => by cases h)
      intro w
      exact find_loop_stop [61, 58] w post (by rcases hc with e | e <;> simp [e])
    have hg : (pre ++ c :: post).get? pre.length = some c := by
      rw [List.get?_eq_getElem?, List.getElem?_append_right (le_refl _)]
      simp
    have hd : List.drop (pre.length + 1) (pre ++ c :: post) = post := by
      rw [List.drop_append_eq_append_drop]
      simp
    have hcc : some c = some 61 ∨ some c = some 58 := by
      rcases hc with e | e <;> simp [e]
    rw [classify_eq_start, hstart, classify_start_not_cont _ hcont]
    unfold classify_start
    simp only [hhead.1, hhead.2.1, hhead.2.2, or_self, if_false, ne_eq, hne,
      not_false_eq_true, if_true, hf, hg, hcc, hd, List.take_left' rfl, not_true_eq_false,
      false_and]
  · intro hs
    obtain ⟨i, hi, hf, hg⟩ := find_loop_hit [61, 58] (c :: post) pre false
      (fun x hx => hfree _ rfl x hx) (Or.inr hs)
    have hf' : find_chars_or_comment (pre ++ c :: post) (some [61, 58]) = i := hf
    rw [classify_eq_start, hstart, classify_start_not_cont _ hcont]
    unfold classify_start
    simp only [hhead.1, hhead.2.1, hhead.2.2, or_self, if_false, ne_eq, hne,
      not_false_eq_true, if_true, hf', hg, not_true_eq_false, false_and]
    simp

/-- A concrete instance of `C16_comment_hides_separator`: `a=b ;c` is split at the
`=`, `a ;b=c` is a syntax error. -/
theorem C16_comment_hides_separator_witness :
    classify 1 [] (str "a=b ;c") = .pair (str "a") (str "b") ∧
    classify 1 [] (str "a ;b=c") = .malformed :=
  ⟨(C16_comment_hides_separator 1 [] (str "a=b ;c") (str "a") (str "b ;c") 61 (by decide)
      (by decide) (by decide) (by decide) (by decide)).1 (by decide),
   (C16_comment_hides_separator 1 [] (str "a ;b=c") (str "a ;b") (str "c") 61 (by decide)
      (by decide) (by decide) (by decide) (by decide)).2.1 (by decide)⟩

/-- C16 as stated fails: `a ;b=c` is a pair line that contains `=`, but the loop
takes the syntax-error branch: no callback is made and the result is 1. -/
theorem C16_counterexample :
    line_start 1 (str "a ;b=c") = str "a ;b=c" ∧ 61 ∈ str "a ;b=c" ∧
    classify 1 [] (str "a ;b=c") = .malformed ∧
    ini_calls [str "a ;b=c"] = [] ∧
    (ini_parse_stream [str "a ;b=c"] record []).1 = 1 := by
  decide

/-- C17 (amended). Comment markers are honoured inside section brackets: on a line
whose working string is `[`, a text `S` without `]`, then `]` (and that is not a
continuation), the section becomes `S` (truncated to 49 bytes), the previous name
is cleared and no error is recorded when no `;` preceded by whitespace occurs in
`S`; when one does, the line is recorded as a syntax error and section and
previous name stay as they are. The line `[a ;b]` is such an error. -/
theorem C17_comment_in_brackets {υ : Type} (handler : Handler υ) (st : ParseState υ)
    (buf S post : List Nat)
    (hstart : line_start (st.lineno + 1) buf = 91 :: S ++ 93 :: post) (hS : 93 ∉ S)
    (hcont : ¬ (st.prev_name ≠ [] ∧ line_indented (st.lineno + 1) buf = true)) :
    (has_ws_semicolon S = false →
      ini_parse_line handler st buf =
        { st with «section» := S.take 49, prev_name := [], lineno := st.lineno + 1 }) ∧
    (has_ws_semicolon S = true →
      ini_parse_line handler st buf =
        { st with lineno := st.lineno + 1,
                  error := if st.error = 0 then st.lineno + 1 else st.error }) ∧
    classify 1 [] (str "[a ;b]") = .malformed ∧
    (ini_parse_stream [str "[a ;b]", str "k=v"] record []) = (1, [(str "", str "k", str "v")]) := by
  have hfree : ∀ cs, some [93] = some cs → ∀ x ∈ S, x ∉ cs := by
    intro cs hcs x hx hm
    cases hcs
    have : x = 93 := by simpa using hm
    exact hS (this ▸ hx)
  have hdrop : List.drop 1 (91 :: S ++ 93 :: post) = S ++ 93 :: post := rfl
  have hhd : (91 :: S ++ 93 :: post).head? = some 91 := rfl
  refine ⟨?_, ?_, by decide, by decide⟩
  · intro hs
    have hf : find_chars_or_comment (S ++ 93 :: post) (some [93]) = S.length := by
      unfold find_chars_or_comment
      apply find_loop_pass _ _ _ _ _ hfree hs (fun h => by cases h)
      intro w
      exact find_loop_stop [93] w post (by simp)
    have hg : (S ++ 93 :: post).get? S.length = some 93 := by
      rw [List.get?_eq_getElem?, List.getElem?_append_right (le_refl _)]
      simp
    have hk : classify (st.lineno + 1) st.prev_name buf = .header (S.take 49) := by
      rw [classify_eq_start, hstart, classify_start_not_cont _ hcont]
      unfold classify_start
      simp only [hhd, hdrop, hf, hg, if_false, if_true, List.take_left' rfl, strncpy0,
        MAX_SECTION, ne_eq, not_true_eq_false, false_and]
      simp
    rw [ini_parse_line_eq, hk]
    rfl
  · intro hs
    obtain ⟨i, hi, hf, hg⟩ := find_loop_hit [93] (93 :: post) S false
      (fun x hx => hfree _ rfl x hx) (Or.inr hs)
    have hf' : find_chars_or_comment (S ++ 93 :: post) (some [93]) = i := hf
    have hk : classify (st.lineno + 1) st.prev_name buf = .malformed := by
      rw [classify_eq_start, hstart, classify_start_not_cont _ hcont]
      unfold classify_start
      simp only [hhd, hdrop, hf', hg, if_false, if_true, ne_eq, not_true_eq_false, false_and]
      simp
    rw [ini_parse_line_eq, hk]
    rfl

/-- A concrete instance of `C17_comment_in_brackets`. -/
theorem C17_comment_in_brackets_witness :
    ini_parse_line record (ParseState.init []) (str "[a;b ]") =
      { ParseState.init [] with «section» := (str "a;b ").take 49, prev_name := [], lineno := 1 } ∧
    ini_parse_line record (ParseState.init []) (str "[a ;b]") =
      { ParseState.init [] with lineno := 1, error := 1 } :=
  ⟨(C17_comment_in_brackets record (ParseState.init []) (str "[a;b ]") (str "a;b ") []
      (by decide) (by decide) (by decide)).1 (by decide),
   (C17_comment_in_brackets record (ParseState.init []) (str "[a ;b]") (str "a ;b") []
      (by decide) (by decide) (by decide)).2.1 (by decide)⟩

/-- C17 as stated fails: the working string of `[a ;b]` starts with `[` and contains
`]`, but the line is recorded as an error and the section stays empty. -/
theorem C17_counterexample :
    line_start 1 (str "[a ;b]") = str "[a ;b]" ∧ 93 ∈ str "[a ;b]" ∧
    (ini_parse_line record (ParseState.init []) (str "[a ;b]")).«section» = [] ∧
    (ini_parse_line record (ParseState.init []) (str "[a ;b]")).error = 1 := by
  decide

/-- C18. Comment and blank lines are transparent. Let `l` be a line whose trimmed
form is empty or starts with `;` or `#`. On every line but the first the loop body
only counts it: no callback, error, section and previous name unchanged. When `l`
is not the first line of the input, deleting it leaves the sequence of callback
invocations unchanged, hence also the final user state of every handler. -/
theorem C18_comment_blank_transparent (pre post : List (List Nat)) (l : List Nat)
    (hpre : pre ≠ [])
    (hl : lskip (rstrip (cstr l)) = [] ∨ (lskip (rstrip (cstr l))).head? = some 59 ∨
      (lskip (rstrip (cstr l))).head? = some 35) :
    (∀ (υ : Type) (handler : Handler υ) (st : ParseState υ), st.lineno ≠ 0 →
      ini_parse_line handler st l = { st with lineno := st.lineno + 1 }) ∧
    ini_calls (pre ++ l :: post) = ini_calls (pre ++ post) ∧
    (∀ (υ : Type) (handler : Handler υ) (user : υ),
      (ini_parse_stream (pre ++ l :: post) handler user).2 =
        (ini_parse_stream (pre ++ post) handler user).2) := by
  have hcalls : ini_calls (pre ++ l :: post) = ini_calls (pre ++ post) := by
    rw [ini_calls_eq_scan, ini_calls_eq_scan]
    exact scan_delete l post hl pre [] [] 0 (Or.inl hpre)
  refine ⟨?_, hcalls, ?_⟩
  · intro υ handler st hst
    rw [ini_parse_line_eq, classify_skipped (by omega) st.prev_name hl]
    rfl
  · intro υ handler user
    rw [stream_user, stream_user, hcalls]

/-- C18, evaluated: a blank line and an indented comment line between `k=a` and
its continuation `  b`. -/
theorem C18_comment_blank_transparent_witness :
    ini_calls ([str "[s]", str "k=a"] ++ str "" :: [str "  ; c", str "  b"]) =
      ini_calls ([str "[s]", str "k=a"] ++ [str "  ; c", str "  b"]) ∧
    ini_calls ([str "[s]", str "k=a", str ""] ++ str "  ; c" :: [str "  b"]) =
      [(str "s", str "k", str "a"), (str "s", str "k", str "b")] ∧
    (INIReader.of_file (str "[s]\nk=a\n\n  ; c\n# d\n  b\n")).get_string (str "s") (str "k")
      (str "") = str "a\nb" :=
  ⟨(C18_comment_blank_transparent [str "[s]", str "k=a"] [str "  ; c", str "  b"] (str "")
      (by decide) (by decide)).2.1,
   by decide, by decide⟩

/-- C19. Empty array segments are kept but not read as zero: `get_array<long>`
returns one element more than the value has commas, but for an empty segment the
extraction does not write `value`, so the element repeats the one before it:
`1,,3` gives `[1, 1, 3]` and `1,2,` gives `[1, 2, 2]`; when the first segment is
empty, as for an empty or absent value, the element is the indeterminate initial
content of `value`. -/
theorem C19_empty_segments (uninit : Int) :
    (∀ (r : INIReader) (s n : List Nat),
      (r.get_array_long s n uninit).length = (r.get_string s n (str "")).count 44 + 1) ∧
    (INIReader.of_file (str "[s]\nlist=1,,3\n")).get_array_long (str "s") (str "list") uninit =
      [1, 1, 3] ∧
    (INIReader.of_file (str "[s]\nlist=1,2,\n")).get_array_long (str "s") (str "list") uninit =
      [1, 2, 2] ∧
    (INIReader.of_file (str "[s]\nlist=\n")).get_array_long (str "s") (str "list") uninit =
      [uninit] ∧
    (INIReader.of_file (str "[s]\nlist=\n")).get_array_long (str "s") (str "other") uninit =
      [uninit] ∧
    (INIReader.of_file (str "[s]\nlist=,5\n")).get_array_long (str "s") (str "list") uninit =
      [uninit, 5] := by
  refine ⟨?_, rfl, rfl, rfl, rfl, rfl⟩
  intro r s n
  unfold INIReader.get_array_long
  exact loop_length _ _ _ (Nat.lt_succ_self _)

/-- C20. Entry keys identify the normalized pair: for any two callback invocations
made on an input, the keys under which the store files them are equal exactly
when the lower-cased sections are equal and the lower-cased names are equal. -/
theorem C20_keys_identify_pair (lines : List (List Nat)) (c1 c2 : Call)
    (h1 : c1 ∈ ini_calls lines) (h2 : c2 ∈ ini_calls lines) :
    make_key c1.1 c1.2.1 = make_key c2.1 c2.2.1 ↔
      c1.1.map tolower = c2.1.map tolower ∧ c1.2.1.map tolower = c2.2.1.map tolower := by
  rw [make_key_eq, make_key_eq]
  constructor
  · intro h
    exact split_at_last 61 _ _ _ _ (lower_free (call_name_free h1))
      (lower_free (call_name_free h2)) h
  · intro h
    rw [h.1, h.2]

/-- C20, evaluated: the section `a=b` with name `c` and the section `a` with name
`b` are filed under different keys. -/
theorem C20_keys_identify_pair_witness :
    (str "a=b", str "c", str "1") ∈ ini_calls [str "[a=b]", str "c=1", str "[a]", str "b=c=2"] ∧
    (str "a", str "b", str "c=2") ∈ ini_calls [str "[a=b]", str "c=1", str "[a]", str "b=c=2"] ∧
    make_key (str "a=b") (str "c") ≠ make_key (str "a") (str "b") :=
  ⟨by decide, by decide, fun hk =>
    absurd ((C20_keys_identify_pair [str "[a=b]", str "c=1", str "[a]", str "b=c=2"]
      (str "a=b", str "c", str "1") (str "a", str "b", str "c=2")
      (by decide) (by decide)).mp hk).1 (by decide)⟩

end INI
